import Mathlib

/-!
Verification of the timeline/placement core of the `vgskills` video-generator
repository, shallowly embedded in Lean 4.

Python floats are modelled as exact rationals (`ℚ`); Python strings are
modelled as `List Char` (`Str` below); Python dicts with string keys are
modelled as association lists in insertion order, looked up with
`List.lookup`; fallible code returns `Except`/`Option`.

Sources embedded here:
* `scripts/vg_core_utils/timeline.py` — `PositionedSegment`,
  `_parse_timeline_markers_from_md`, `markers_to_md_block`,
  `calculate_segment_times_strict`, `calculate_segment_times_lenient`,
  `fix_overlaps_cascading`.
* `scripts/vg_edit.py` — `_calculate_time_mapping`, `map_time_with_breakpoints`.
* `scripts/vg_captions.py` — `_adjust_time_for_speed`.
* `scripts/vg_commands/compose.py` — `add_repeatable`, `condition_met`,
  `_inject_processing_fillers`.
-/

/-- Python strings are modelled as lists of characters. -/
abbrev Str := List Char

/-- Coerce a Lean string literal to the `List Char` model. -/
def chars (s : String) : Str := s.data

/-- A narration segment with its calculated start time
(`timeline.py`, dataclass `PositionedSegment`). -/
structure PositionedSegment where
  id : Str
  text : Str
  start_time_s : ℚ
  audio_path : Option Str := none
  duration_s : ℚ := 0
deriving DecidableEq, Repr

/-- The ordering on positioned segments used by every `sort(key=s.start_time_s)`
call in the source. -/
def byStart (p q : PositionedSegment) : Prop := p.start_time_s ≤ q.start_time_s

instance : DecidableRel byStart := fun p q => inferInstanceAs (Decidable (_ ≤ _))

instance : IsTotal PositionedSegment byStart := ⟨fun p q => le_total _ _⟩

instance : IsTrans PositionedSegment byStart := ⟨fun _ _ _ => le_trans⟩

/-- `timeline.py::fix_overlaps_cascading`, inner loop: `prev` is the last
element already appended to `fixed`; each later segment is delayed to
`prev_end + 0.3` when it starts before `prev_end`. -/
def fix_overlaps_go (prev : PositionedSegment) : List PositionedSegment → List PositionedSegment
  | [] => []
  | seg :: rest =>
    let prevEnd := prev.start_time_s + prev.duration_s
    let seg2 := if seg.start_time_s < prevEnd
      then { seg with start_time_s := prevEnd + 3/10 } else seg
    seg2 :: fix_overlaps_go seg2 rest

/-- `timeline.py::fix_overlaps_cascading`: the first segment is unchanged,
every later one is cascaded against the previous (already fixed) segment. -/
def fix_overlaps_cascading : List PositionedSegment → List PositionedSegment
  | [] => []
  | s0 :: rest => s0 :: fix_overlaps_go s0 rest

/-- Adjacent non-overlap: the earlier segment ends no later than the next starts. -/
def noOverlap (p q : PositionedSegment) : Prop :=
  p.start_time_s + p.duration_s ≤ q.start_time_s

instance : DecidableRel noOverlap := fun p q => inferInstanceAs (Decidable (_ ≤ _))

/-- Relation on (output, input) pairs of the overlap resolver: consecutive
outputs do not overlap, and each output either kept its input start time or
was shifted to exactly 300 ms past the previous output's end. -/
def shiftedOrKept (a b : PositionedSegment × PositionedSegment) : Prop :=
  noOverlap a.1 b.1 ∧
    (b.1.start_time_s = b.2.start_time_s ∨
      b.1.start_time_s = a.1.start_time_s + a.1.duration_s + 3/10)

instance : DecidableRel shiftedOrKept := fun _ _ => inferInstanceAs (Decidable (_ ∧ _))

lemma fix_overlaps_go_length (prev : PositionedSegment) (l : List PositionedSegment) :
    (fix_overlaps_go prev l).length = l.length := by
  induction l generalizing prev with
  | nil => rfl
  | cons seg rest ih => simp [fix_overlaps_go, ih]

lemma fix_overlaps_go_chain (prev x : PositionedSegment) (l : List PositionedSegment) :
    List.Chain shiftedOrKept (prev, x) ((fix_overlaps_go prev l).zip l) := by
  induction l generalizing prev x with
  | nil => exact List.Chain.nil
  | cons seg rest ih =>
    simp only [fix_overlaps_go, List.zip_cons_cons]
    by_cases h : seg.start_time_s < prev.start_time_s + prev.duration_s
    · simp only [if_pos h]
      refine List.Chain.cons ⟨?_, Or.inr rfl⟩ (ih _ _)
      show prev.start_time_s + prev.duration_s ≤ _
      simp only []
      linarith
    · simp only [if_neg h]
      exact List.Chain.cons ⟨le_of_not_lt h, Or.inl rfl⟩ (ih _ _)

/-- C1: for every input list of PositionedSegments sorted ascending by
`start_time_s`, each with an assigned `duration_s`, `fix_overlaps_cascading`
returns a list of the same length in which every adjacent pair satisfies
`segments[i].start_time_s + segments[i].duration_s ≤ segments[i+1].start_time_s`
(no overlap), and every segment either keeps its input start time or is
shifted to exactly 300 ms past the previous output segment's end. -/
theorem fix_overlaps_cascading_no_overlap (segs : List PositionedSegment)
    (hsorted : List.Pairwise byStart segs) :
    (fix_overlaps_cascading segs).length = segs.length ∧
    List.Chain' noOverlap (fix_overlaps_cascading segs) ∧
    List.Chain' shiftedOrKept ((fix_overlaps_cascading segs).zip segs) := by
  cases segs with
  | nil => exact ⟨rfl, List.chain'_nil, List.chain'_nil⟩
  | cons s0 rest =>
    have hzip : List.Chain shiftedOrKept (s0, s0) ((fix_overlaps_go s0 rest).zip rest) :=
      fix_overlaps_go_chain s0 s0 rest
    refine ⟨by simp [fix_overlaps_cascading, fix_overlaps_go_length], ?_, ?_⟩
    · -- project the zipped chain onto its first components
      have proj : ∀ (p : PositionedSegment × PositionedSegment)
          (l : List PositionedSegment) (fl : List PositionedSegment),
          List.Chain shiftedOrKept p (fl.zip l) → fl.length = l.length →
          List.Chain noOverlap p.1 fl := by
        intro p l
        induction l generalizing p with
        | nil => intro fl _ hlen; rw [List.length_eq_zero.mp hlen]; exact List.Chain.nil
        | cons y ys ih =>
          intro fl hch hlen
          cases fl with
          | nil => simp at hlen
          | cons f fs =>
            rw [List.zip_cons_cons] at hch
            cases hch with
            | cons hrel htail =>
              exact List.Chain.cons hrel.1 (ih _ _ htail (by simpa using hlen))
      show List.Chain' noOverlap (s0 :: fix_overlaps_go s0 rest)
      exact proj (s0, s0) rest (fix_overlaps_go s0 rest) hzip (fix_overlaps_go_length s0 rest)
    · show List.Chain' shiftedOrKept ((s0 :: fix_overlaps_go s0 rest).zip (s0 :: rest))
      rw [List.zip_cons_cons]
      exact hzip

/-- Witness for C1 at a concrete overlapping input: two sorted segments where
the second starts 1 s into the first's 2 s of audio; the resolver shifts it to
2.3 s. -/
theorem fix_overlaps_cascading_no_overlap_witness :
    List.Pairwise byStart
      [⟨chars "a", chars "", 0, none, 2⟩, ⟨chars "b", chars "", 1, none, 1⟩] ∧
    ((fix_overlaps_cascading
        [⟨chars "a", chars "", 0, none, 2⟩, ⟨chars "b", chars "", 1, none, 1⟩]).length =
      [(⟨chars "a", chars "", 0, none, 2⟩ : PositionedSegment),
        ⟨chars "b", chars "", 1, none, 1⟩].length ∧
    List.Chain' noOverlap (fix_overlaps_cascading
        [⟨chars "a", chars "", 0, none, 2⟩, ⟨chars "b", chars "", 1, none, 1⟩]) ∧
    List.Chain' shiftedOrKept ((fix_overlaps_cascading
        [⟨chars "a", chars "", 0, none, 2⟩, ⟨chars "b", chars "", 1, none, 1⟩]).zip
        [⟨chars "a", chars "", 0, none, 2⟩, ⟨chars "b", chars "", 1, none, 1⟩])) :=
  ⟨by decide,
    fix_overlaps_cascading_no_overlap
      [⟨chars "a", chars "", 0, none, 2⟩, ⟨chars "b", chars "", 1, none, 1⟩] (by decide)⟩

/-- A segment definition as consumed by the resolvers
(`segments: List[Dict]` with keys `id`, `text`, `anchor`, `offset_s`,
`audio_file`; `anchor`/`audio_file` may be absent, `offset_s` defaults to 0). -/
structure SegDef where
  id : Str
  text : Str
  anchor : Option Str := none
  offset_s : ℚ := 0
  audio_file : Option Str := none
deriving DecidableEq, Repr

/-- The `ValueError` raised by `calculate_segment_times_strict`: it carries the
missing anchor (`None` possible, since `seg.get("anchor")` may be absent) and
the list of available marker names. -/
structure MarkerError where
  anchor : Option Str
  available : List Str
deriving DecidableEq, Repr

/-- Python `anchor in markers` / `markers[anchor]` for an optional anchor:
`None` is never a key of a string-keyed dict. -/
def lookupMarker (markers : List (Str × ℚ)) (a : Option Str) : Option ℚ :=
  match a with
  | some s => List.lookup s markers
  | none => none

/-- Construction of the `PositionedSegment` in
`calculate_segment_times_strict`: `start_time_s = max(0, marker_time + offset)`,
`duration_s` left at its default 0. -/
def positionOf (seg : SegDef) (t : ℚ) : PositionedSegment :=
  { id := seg.id, text := seg.text, start_time_s := max 0 (t + seg.offset_s),
    audio_path := seg.audio_file, duration_s := 0 }

/-- The per-segment loop of `calculate_segment_times_strict`: the first
segment whose anchor is not a key of `markers` raises; otherwise every segment
is positioned. -/
def strict_go (markers : List (Str × ℚ)) : List SegDef → Except MarkerError (List PositionedSegment)
  | [] => .ok []
  | seg :: rest =>
    match lookupMarker markers seg.anchor with
    | none => .error ⟨seg.anchor, markers.map Prod.fst⟩
    | some t => (strict_go markers rest).map (fun ps => positionOf seg t :: ps)

/-- `timeline.py::calculate_segment_times_strict`: position every segment at
`max(0, markers[anchor] + offset_s)`, raising on the first missing anchor,
then sort ascending by `start_time_s`. -/
def calculate_segment_times_strict (segments : List SegDef) (markers : List (Str × ℚ)) :
    Except MarkerError (List PositionedSegment) :=
  (strict_go markers segments).map (List.insertionSort byStart)

lemma strict_go_ok (markers : List (Str × ℚ)) (segments : List SegDef)
    (h : ∀ seg ∈ segments, (lookupMarker markers seg.anchor).isSome) :
    ∃ l, strict_go markers segments = .ok l ∧ l.length = segments.length ∧
      ∀ p ∈ l, ∃ seg ∈ segments, ∃ t, lookupMarker markers seg.anchor = some t ∧
        p = positionOf seg t := by
  induction segments with
  | nil => exact ⟨[], rfl, rfl, by simp⟩
  | cons seg rest ih =>
    obtain ⟨t, ht⟩ := Option.isSome_iff_exists.mp (h seg (by simp))
    obtain ⟨l, hok, hlen, hmem⟩ := ih (fun s hs => h s (List.mem_cons_of_mem _ hs))
    refine ⟨positionOf seg t :: l, ?_, by simp [hlen], ?_⟩
    · simp [strict_go, ht, hok, Except.map]
    · intro p hp
      rcases List.mem_cons.mp hp with hp | hp
      · exact ⟨seg, by simp, t, ht, hp⟩
      · obtain ⟨s, hs, u, hu, hpu⟩ := hmem p hp
        exact ⟨s, List.mem_cons_of_mem _ hs, u, hu, hpu⟩

/-- C2: for every marker map and segment list in which every segment's anchor
is a key of the map, strict resolution succeeds and returns exactly
`len(segments)` PositionedSegments, sorted ascending by `start_time_s`, each
with `start_time_s = max(0, markers[anchor] + offset_s)`. -/
theorem calculate_segment_times_strict_total (segments : List SegDef)
    (markers : List (Str × ℚ))
    (h : ∀ seg ∈ segments, (lookupMarker markers seg.anchor).isSome) :
    ∃ l, calculate_segment_times_strict segments markers = .ok l ∧
      l.length = segments.length ∧
      List.Sorted byStart l ∧
      ∀ p ∈ l, ∃ seg ∈ segments, ∃ t, lookupMarker markers seg.anchor = some t ∧
        p = positionOf seg t := by
  obtain ⟨l, hok, hlen, hmem⟩ := strict_go_ok markers segments h
  refine ⟨List.insertionSort byStart l, ?_, ?_, ?_, ?_⟩
  · simp [calculate_segment_times_strict, hok, Except.map]
  · rw [List.length_insertionSort]; exact hlen
  · exact List.sorted_insertionSort byStart l
  · intro p hp
    exact hmem p ((List.mem_insertionSort byStart).mp hp)

/-- Witness for C2: one segment anchored at an existing marker resolves. -/
theorem calculate_segment_times_strict_total_witness :
    (∀ seg ∈ [(⟨chars "intro", chars "hi", some (chars "t_page_loaded"), 2, none⟩ : SegDef)],
      (lookupMarker [(chars "t_page_loaded", 2)] seg.anchor).isSome) ∧
    ∃ l, calculate_segment_times_strict
        [⟨chars "intro", chars "hi", some (chars "t_page_loaded"), 2, none⟩]
        [(chars "t_page_loaded", 2)] = .ok l ∧
      l.length = 1 ∧
      List.Sorted byStart l ∧
      ∀ p ∈ l, ∃ seg ∈ [(⟨chars "intro", chars "hi", some (chars "t_page_loaded"), 2, none⟩ : SegDef)],
        ∃ t, lookupMarker [(chars "t_page_loaded", 2)] seg.anchor = some t ∧
          p = positionOf seg t :=
  ⟨by decide,
    calculate_segment_times_strict_total
      [⟨chars "intro", chars "hi", some (chars "t_page_loaded"), 2, none⟩]
      [(chars "t_page_loaded", 2)] (by decide)⟩

/-- C8: if some segment's anchor is not a key of the marker map, strict
resolution raises an error naming a missing anchor and listing all available
marker names, and returns no positioned segments at all. -/
theorem calculate_segment_times_strict_missing (segments : List SegDef)
    (markers : List (Str × ℚ))
    (h : ∃ seg ∈ segments, lookupMarker markers seg.anchor = none) :
    ∃ e, calculate_segment_times_strict segments markers = .error e ∧
      e.available = markers.map Prod.fst ∧
      ∃ seg ∈ segments, lookupMarker markers seg.anchor = none ∧
        e.anchor = seg.anchor := by
  have main : ∃ e, strict_go markers segments = .error e ∧
      e.available = markers.map Prod.fst ∧
      ∃ seg ∈ segments, lookupMarker markers seg.anchor = none ∧
        e.anchor = seg.anchor := by
    induction segments with
    | nil => simp at h
    | cons seg rest ih =>
      cases hma : lookupMarker markers seg.anchor with
      | none =>
        exact ⟨⟨seg.anchor, markers.map Prod.fst⟩, by simp [strict_go, hma], rfl,
          seg, by simp, hma, rfl⟩
      | some t =>
        have hrest : ∃ s ∈ rest, lookupMarker markers s.anchor = none := by
          obtain ⟨s, hs, hnone⟩ := h
          rcases List.mem_cons.mp hs with rfl | hs
          · rw [hma] at hnone; exact absurd hnone (by simp)
          · exact ⟨s, hs, hnone⟩
        obtain ⟨e, herr, hav, s, hs, hnone, hanch⟩ := ih hrest
        exact ⟨e, by simp [strict_go, hma, herr, Except.map], hav,
          s, List.mem_cons_of_mem _ hs, hnone, hanch⟩
  obtain ⟨e, herr, hav, s, hs, hnone, hanch⟩ := main
  exact ⟨e, by simp [calculate_segment_times_strict, herr, Except.map], hav,
    s, hs, hnone, hanch⟩

/-- Witness for C8: a segment anchored at an absent marker makes strict
resolution fail with the anchor name and the available marker list. -/
theorem calculate_segment_times_strict_missing_witness :
    (∃ seg ∈ [(⟨chars "intro", chars "hi", some (chars "t_missing"), 0, none⟩ : SegDef)],
      lookupMarker [(chars "t_page_loaded", 2)] seg.anchor = none) ∧
    ∃ e, calculate_segment_times_strict
        [⟨chars "intro", chars "hi", some (chars "t_missing"), 0, none⟩]
        [(chars "t_page_loaded", 2)] = .error e ∧
      e.available = [chars "t_page_loaded"] ∧
      ∃ seg ∈ [(⟨chars "intro", chars "hi", some (chars "t_missing"), 0, none⟩ : SegDef)],
        lookupMarker [(chars "t_page_loaded", 2)] seg.anchor = none ∧
          e.anchor = seg.anchor :=
  ⟨by decide,
    calculate_segment_times_strict_missing
      [⟨chars "intro", chars "hi", some (chars "t_missing"), 0, none⟩]
      [(chars "t_page_loaded", 2)] (by decide)⟩

/-- Numeric value of an ASCII digit character. -/
def charVal (c : Char) : ℕ := c.toNat - 48

/-- Decimal digits of a natural number, least significant first
(model of Python `str(n)` for a non-negative int, reversed). -/
def natToCharsAux (n : ℕ) : List Char :=
  if h : n < 10 then [Nat.digitChar n]
  else Nat.digitChar (n % 10) :: natToCharsAux (n / 10)
termination_by n
decreasing_by exact Nat.div_lt_self (by omega) (by norm_num)

/-- Model of Python `str(n)` for a non-negative int. -/
def natToChars (n : ℕ) : List Char := (natToCharsAux n).reverse

/-- Value of a string of ASCII digits, most significant first. -/
def parseNatChars (ds : List Char) : ℕ := ds.foldl (fun a c => 10 * a + charVal c) 0

lemma charVal_digitChar (n : ℕ) (h : n < 10) : charVal (Nat.digitChar n) = n := by
  interval_cases n <;> rfl

lemma digitChar_isDigit (n : ℕ) (h : n < 10) : (Nat.digitChar n).isDigit = true := by
  interval_cases n <;> rfl

lemma parseNatChars_append_digit (ds : List Char) (c : Char) :
    parseNatChars (ds ++ [c]) = 10 * parseNatChars ds + charVal c := by
  simp [parseNatChars, List.foldl_append]

lemma natToChars_snoc (n : ℕ) (h : ¬ n < 10) :
    natToChars n = natToChars (n / 10) ++ [Nat.digitChar (n % 10)] := by
  rw [natToChars, natToChars, natToCharsAux]
  simp [h]

lemma parseNat_natToChars (n : ℕ) : parseNatChars (natToChars n) = n := by
  induction n using Nat.strong_induction_on with
  | _ n ih =>
    by_cases h : n < 10
    · rw [natToChars, natToCharsAux, dif_pos h]
      simp [parseNatChars, charVal_digitChar n h]
    · rw [natToChars_snoc n h, parseNatChars_append_digit,
        ih (n / 10) (Nat.div_lt_self (by omega) (by norm_num)),
        charVal_digitChar _ (Nat.mod_lt _ (by norm_num))]
      omega

lemma natToChars_inj {a b : ℕ} (h : natToChars a = natToChars b) : a = b := by
  have := congrArg parseNatChars h
  rwa [parseNat_natToChars, parseNat_natToChars] at this

lemma natToChars_isDigit (n : ℕ) : ∀ c ∈ natToChars n, c.isDigit = true := by
  induction n using Nat.strong_induction_on with
  | _ n ih =>
    by_cases h : n < 10
    · rw [natToChars, natToCharsAux, dif_pos h]
      intro c hc
      simp at hc
      rw [hc]
      exact digitChar_isDigit n h
    · rw [natToChars_snoc n h]
      intro c hc
      rcases List.mem_append.mp hc with hc | hc
      · exact ih (n / 10) (Nat.div_lt_self (by omega) (by norm_num)) c hc
      · simp at hc
        rw [hc]
        exact digitChar_isDigit _ (Nat.mod_lt _ (by norm_num))

/-- Inner loop of `vg_edit.py::map_time_with_breakpoints`: walk the breakpoint
list keeping the previous pair; interpolate in the first bracket whose
original coordinate reaches `t`; past the last pair return the last new time. -/
def map_time_go (t : ℚ) (prev : ℚ × ℚ) : List (ℚ × ℚ) → ℚ
  | [] => prev.2
  | (o, n) :: rest =>
    if t ≤ o then
      if o = prev.1 then n
      else prev.2 + (t - prev.1) / (o - prev.1) * (n - prev.2)
    else map_time_go t (o, n) rest

/-- `vg_edit.py::map_time_with_breakpoints`: map an original timestamp to the
sped-up timeline via piecewise-linear interpolation over `(orig, new)`
breakpoints; an empty breakpoint list is the identity. -/
def map_time_with_breakpoints (t : ℚ) (bps : List (ℚ × ℚ)) : ℚ :=
  match bps with
  | [] => t
  | b0 :: rest => map_time_go t b0 rest

/-- C4, counterexample: with breakpoints `[(0,0), (2,1)]` (last segment ratio
1/2) and query time 4, the code returns the last new time 1, not the
extrapolated value `1 + (4-2) * (1-0)/(2-0) = 2` the claim predicts. -/
theorem map_time_beyond_last_counterexample :
    map_time_with_breakpoints 4 [(0, 0), (2, 1)] = 1 ∧
    (1 : ℚ) + (4 - 2) * ((1 - 0) / (2 - 0)) = 2 ∧
    (1 : ℚ) ≠ 2 :=
  ⟨by norm_num [map_time_with_breakpoints, map_time_go], by norm_num, by norm_num⟩

lemma map_time_go_beyond (t : ℚ) :
    ∀ (rest : List (ℚ × ℚ)) (prev : ℚ × ℚ), (∀ p ∈ rest, p.1 < t) →
      map_time_go t prev rest = ((prev :: rest).getLast (by simp)).2 := by
  intro rest
  induction rest with
  | nil => intro prev _; rfl
  | cons b r ih =>
    intro prev h
    obtain ⟨o, n⟩ := b
    have ho : o < t := h (o, n) (by simp)
    rw [map_time_go, if_neg (not_le.mpr ho),
      ih (o, n) (fun p hp => h p (List.mem_cons_of_mem _ hp)),
      List.getLast_cons (by simp : ((o, n) :: r) ≠ [])]

/-- C4, amended: for every breakpoint list with at least two breakpoints and
every original time strictly greater than every breakpoint's original
coordinate (in particular, beyond the last breakpoint of a sorted list),
`map_time_with_breakpoints` clamps: it returns the last breakpoint's new
coordinate, and does not extrapolate. -/
theorem map_time_beyond_last_clamps (t : ℚ) (b0 b1 : ℚ × ℚ) (rest : List (ℚ × ℚ))
    (h : ∀ p ∈ b0 :: b1 :: rest, p.1 < t) :
    map_time_with_breakpoints t (b0 :: b1 :: rest) =
      ((b0 :: b1 :: rest).getLast (by simp)).2 := by
  rw [map_time_with_breakpoints, map_time_go_beyond t (b1 :: rest) b0
    (fun p hp => h p (List.mem_cons_of_mem _ hp))]

/-- Witness for the amended C4 at breakpoints `[(0,0), (2,1)]` and time 5. -/
theorem map_time_beyond_last_clamps_witness :
    (∀ p ∈ [((0 : ℚ), (0 : ℚ)), (2, 1)], p.1 < 5) ∧
    map_time_with_breakpoints 5 [(0, 0), (2, 1)] =
      (([((0 : ℚ), (0 : ℚ)), (2, 1)]).getLast (by simp)).2 :=
  ⟨by decide, map_time_beyond_last_clamps 5 (0, 0) (2, 1) [] (by decide)⟩

/-- A speed section as consumed by
`vg_captions.py::_adjust_time_for_speed` (`{start_s, end_s, speed}`). -/
structure SpeedSection where
  start_s : ℚ
  end_s : ℚ
  speed : ℚ
deriving DecidableEq, Repr

/-- The ordering used by `sorted(speed_sections, key=lambda s: s['start_s'])`. -/
def bySectionStart (a b : SpeedSection) : Prop := a.start_s ≤ b.start_s

instance : DecidableRel bySectionStart := fun a b => inferInstanceAs (Decidable (_ ≤ _))

instance : IsTotal SpeedSection bySectionStart := ⟨fun a b => le_total _ _⟩

instance : IsTrans SpeedSection bySectionStart := ⟨fun _ _ _ => le_trans⟩

/-- Loop of `vg_captions.py::_adjust_time_for_speed`. When `time` falls inside
a section the source sets `adjusted_time = start + compressed_position -
cumulative_shift` and breaks, after which the trailing
`return adjusted_time - cumulative_shift` subtracts the cumulative shift a
second time; this embedding reproduces that faithfully. -/
def adjust_time_go (time : ℚ) : ℚ → ℚ → List SpeedSection → ℚ
  | adjusted, shift, [] => adjusted - shift
  | adjusted, shift, sec :: rest =>
    let compression := (sec.end_s - sec.start_s) - (sec.end_s - sec.start_s) / sec.speed
    if time < sec.start_s then adjust_time_go time adjusted shift rest
    else if time ≤ sec.end_s then
      (sec.start_s + (time - sec.start_s) / sec.speed - shift) - shift
    else adjust_time_go time adjusted (shift + compression) rest

/-- `vg_captions.py::_adjust_time_for_speed`: adjust a single timestamp for a
list of speed sections, processed sorted by `start_s`. -/
def adjust_time_for_speed (time : ℚ) (sections : List SpeedSection) : ℚ :=
  adjust_time_go time time 0 (List.insertionSort bySectionStart sections)

/-- C5: for the disjoint sections `[0,10] @ 2x` and `[20,30] @ 2x` and
timestamp 25 (inside the second section, after the first), the code returns
12.5: it subtracts the 5 s cumulative compression of the first section twice.
The claimed piecewise remapping (section_start − earlier compression +
position/speed) gives `20 − 5 + (25−20)/2 = 17.5`. -/
theorem adjust_time_for_speed_double_shift :
    adjust_time_for_speed 25 [⟨0, 10, 2⟩, ⟨20, 30, 2⟩] = 25/2 ∧
    (20 : ℚ) - 5 + (25 - 20) / 2 = 35/2 ∧
    (25/2 : ℚ) ≠ 35/2 := by
  refine ⟨?_, by norm_num, by norm_num⟩
  norm_num [adjust_time_for_speed, adjust_time_go, List.insertionSort,
    List.orderedInsert, bySectionStart]

/-- Parameters of `compose.py::add_repeatable` (the keyword arguments of the
inner helper of `_inject_processing_fillers`). `start_marker` and
`end_marker` are optional because the user-conditional path may pass
`None` for either. -/
structure CondParams where
  base_id : Str
  start_marker : Option Str
  end_marker : Option Str
  min_duration_s : ℚ
  offset_s : ℚ
  text : Str
  repeatable : Bool := false
  max_repeats : ℤ := 1
  repeat_interval_s : ℚ := 0
deriving DecidableEq, Repr

/-- The `for i in range(repeats)` loop of `compose.py::add_repeatable`,
threading the mutable `existing_ids` set (modelled as a list, membership
only) and the `added_segments` accumulator. -/
def add_repeatable_loop (p : CondParams) (duration_s : ℚ) (repeats : ℤ) :
    List ℕ → List Str → List SegDef → List Str × List SegDef
  | [], existing, acc => (existing, acc)
  | i :: rest, existing, acc =>
    let seg_id := if 1 < repeats then p.base_id ++ '_' :: natToChars (i + 1) else p.base_id
    if seg_id ∈ existing then add_repeatable_loop p duration_s repeats rest existing acc
    else
      let seg_offset := p.offset_s + (i : ℚ) * p.repeat_interval_s
      if duration_s - 1/2 ≤ seg_offset then
        add_repeatable_loop p duration_s repeats rest existing acc
      else
        add_repeatable_loop p duration_s repeats rest (seg_id :: existing)
          (acc ++ [⟨seg_id, p.text, p.start_marker, seg_offset, none⟩])

/-- `compose.py::add_repeatable`: evaluate one (possibly repeatable) filler
definition against the marker map, returning the updated `existing_ids` and
the list of added segment dicts (`{id, anchor, offset_s, text}`).
`duration_s` falls back to `999999.0` when `end_marker` is falsy or absent
from the markers; `repeats = min(max_repeats,
int((duration_s - offset_s) // repeat_interval_s) + 1)` when repeatable. -/
def add_repeatable (markers : List (Str × ℚ)) (existing : List Str) (p : CondParams) :
    List Str × List SegDef :=
  match lookupMarker markers p.start_marker with
  | none => (existing, [])
  | some t0 =>
    let duration_s : ℚ :=
      match p.end_marker with
      | some em =>
        if em = [] then 999999
        else
          match List.lookup em markers with
          | some t1 => t1 - t0
          | none => 999999
      | none => 999999
    if duration_s < p.min_duration_s then (existing, [])
    else if duration_s - 1/2 ≤ p.offset_s then (existing, [])
    else
      let repeats : ℤ :=
        if p.repeatable ∧ 0 < p.repeat_interval_s
        then min p.max_repeats (⌊(duration_s - p.offset_s) / p.repeat_interval_s⌋ + 1)
        else 1
      add_repeatable_loop p duration_s repeats (List.range repeats.toNat) existing []

/-- C9, counterexample: markers `t_s=0, t_e=10`, a repeatable filler with
base id `f`, `min_duration 0`, `offset 0`, `max_repeats 1`, `interval 6`.
`min(max_repeats, floor((10-0)/6)+1) = 1` repeat is materialized, but its id
is the unsuffixed `f`, not `f_1` as the claim's "ids suffixed `_1`, `_2`, ..."
requires. -/
theorem add_repeatable_single_repeat_unsuffixed :
    ((add_repeatable [(chars "t_s", 0), (chars "t_e", 10)] []
        ⟨chars "f", some (chars "t_s"), some (chars "t_e"), 0, 0, chars "", true, 1, 6⟩).2.map
      SegDef.id) = [chars "f"] ∧
    min (1 : ℤ) (⌊((10 : ℚ) - 0) / 6⌋ + 1) = 1 ∧
    chars "f" ≠ chars "f_1" := by
  refine ⟨?_, by norm_num, by decide⟩
  norm_num +decide [add_repeatable, add_repeatable_loop, lookupMarker,
    show List.lookup (chars "t_s") [(chars "t_s", (0 : ℚ)), (chars "t_e", 10)] = some 0 from rfl,
    show List.lookup (chars "t_e") [(chars "t_s", (0 : ℚ)), (chars "t_e", 10)] = some 10 from rfl,
    min_def, List.range, List.range.loop]

lemma add_repeatable_loop_spec (p : CondParams) (d : ℚ) (R : ℤ) :
    ∀ (idxs : List ℕ) (existing : List Str) (acc : List SegDef),
    idxs.Nodup →
    (∀ i ∈ idxs, ∀ j ∈ idxs, i ≠ j →
      (if 1 < R then p.base_id ++ '_' :: natToChars (i + 1) else p.base_id) ≠
      (if 1 < R then p.base_id ++ '_' :: natToChars (j + 1) else p.base_id)) →
    (add_repeatable_loop p d R idxs existing acc).2 =
      acc ++ idxs.filterMap (fun (i : ℕ) =>
        if p.offset_s + (i : ℚ) * p.repeat_interval_s < d - 1/2 ∧
            (if 1 < R then p.base_id ++ '_' :: natToChars (i + 1) else p.base_id) ∉ existing
        then some ⟨if 1 < R then p.base_id ++ '_' :: natToChars (i + 1) else p.base_id,
          p.text, p.start_marker, p.offset_s + (i : ℚ) * p.repeat_interval_s, none⟩
        else none) := by
  intro idxs
  induction idxs with
  | nil => intro existing acc _ _; simp [add_repeatable_loop]
  | cons i rest ih =>
    intro existing acc hnd hdist
    have hndrest : rest.Nodup := (List.nodup_cons.mp hnd).2
    have hinotin : i ∉ rest := (List.nodup_cons.mp hnd).1
    have hdistrest : ∀ a ∈ rest, ∀ b ∈ rest, a ≠ b →
        (if 1 < R then p.base_id ++ '_' :: natToChars (a + 1) else p.base_id) ≠
        (if 1 < R then p.base_id ++ '_' :: natToChars (b + 1) else p.base_id) :=
      fun a ha b hb => hdist a (List.mem_cons_of_mem _ ha) b (List.mem_cons_of_mem _ hb)
    by_cases hmem : (if 1 < R then p.base_id ++ '_' :: natToChars (i + 1) else p.base_id)
        ∈ existing
    · rw [add_repeatable_loop, if_pos hmem, ih existing acc hndrest hdistrest,
        List.filterMap_cons]
      simp only [hmem, not_true_eq_false, and_false, if_false]
    · by_cases hoff : d - 1/2 ≤ p.offset_s + (i : ℚ) * p.repeat_interval_s
      · rw [add_repeatable_loop, if_neg hmem, if_pos hoff,
          ih existing acc hndrest hdistrest, List.filterMap_cons]
        simp only [not_lt.mpr hoff, false_and, if_false]
      · rw [add_repeatable_loop, if_neg hmem, if_neg hoff,
          ih _ _ hndrest hdistrest, List.filterMap_cons]
        simp only [not_le.mp hoff, hmem, not_false_eq_true, and_self, if_true]
        rw [List.filterMap_congr, List.append_assoc, List.singleton_append]
        intro j hj
        have hne : (if 1 < R then p.base_id ++ '_' :: natToChars (j + 1) else p.base_id) ≠
            (if 1 < R then p.base_id ++ '_' :: natToChars (i + 1) else p.base_id) :=
          hdist j (List.mem_cons_of_mem _ hj) i (List.mem_cons_self _ _)
            (fun hji => hinotin (hji ▸ hj))
        simp only [List.mem_cons, hne, false_or]

lemma repeat_ids_distinct (p : CondParams) (R : ℤ) :
    ∀ i ∈ List.range R.toNat, ∀ j ∈ List.range R.toNat, i ≠ j →
      (if 1 < R then p.base_id ++ '_' :: natToChars (i + 1) else p.base_id) ≠
      (if 1 < R then p.base_id ++ '_' :: natToChars (j + 1) else p.base_id) := by
  intro i hi j hj hij
  by_cases hR : 1 < R
  · simp only [if_pos hR]
    intro h
    have h2 := List.append_cancel_left h
    have h3 : natToChars (i + 1) = natToChars (j + 1) := by
      injection h2
    have h4 := natToChars_inj h3
    omega
  · exfalso
    rw [List.mem_range] at hi hj
    have hle : R.toNat ≤ 1 := by omega
    omega

/-- C9, amended: for a repeatable conditional filler whose duration condition
holds (`duration = markers[end_marker] - markers[start_marker] ≥
min_duration_s`, a positive repeat interval), the injector materializes
`min(max_repeats, floor((duration - offset_s) / repeat_interval_s) + 1)`
candidates anchored at `start_marker` at offsets `offset_s + i*interval`,
includes a candidate iff its offset is strictly below `duration - 0.5` and
its id is not already present; when more than one repeat is materialized the
ids are suffixed `_1`, `_2`, ..., while a single materialized repeat keeps
the unsuffixed base id. -/
theorem add_repeatable_repeats_spec (markers : List (Str × ℚ)) (existing : List Str)
    (p : CondParams) (t0 t1 : ℚ) (em : Str)
    (h0 : lookupMarker markers p.start_marker = some t0)
    (hem : p.end_marker = some em) (hemne : em ≠ [])
    (h1 : List.lookup em markers = some t1)
    (hmin : p.min_duration_s ≤ t1 - t0)
    (hrep : p.repeatable = true) (hint : 0 < p.repeat_interval_s) :
    (add_repeatable markers existing p).2 =
      (List.range (min p.max_repeats
          (⌊((t1 - t0) - p.offset_s) / p.repeat_interval_s⌋ + 1)).toNat).filterMap
        (fun (i : ℕ) =>
          if p.offset_s + (i : ℚ) * p.repeat_interval_s < (t1 - t0) - 1/2 ∧
              (if 1 < min p.max_repeats
                  (⌊((t1 - t0) - p.offset_s) / p.repeat_interval_s⌋ + 1)
                then p.base_id ++ '_' :: natToChars (i + 1) else p.base_id) ∉ existing
          then some ⟨if 1 < min p.max_repeats
                (⌊((t1 - t0) - p.offset_s) / p.repeat_interval_s⌋ + 1)
              then p.base_id ++ '_' :: natToChars (i + 1) else p.base_id,
            p.text, p.start_marker,
            p.offset_s + (i : ℚ) * p.repeat_interval_s, none⟩
          else none) := by
  rw [add_repeatable, h0, hem]
  simp only [if_neg hemne, h1]
  rw [if_neg (not_lt.mpr hmin)]
  by_cases hoff : (t1 - t0) - 1/2 ≤ p.offset_s
  · rw [if_pos hoff]
    have hall : ∀ i ∈ List.range (min p.max_repeats
        (⌊((t1 - t0) - p.offset_s) / p.repeat_interval_s⌋ + 1)).toNat,
        ¬ (p.offset_s + (i : ℚ) * p.repeat_interval_s < (t1 - t0) - 1/2) := by
      intro i _
      have : (0 : ℚ) ≤ (i : ℚ) * p.repeat_interval_s :=
        mul_nonneg (by positivity) (le_of_lt hint)
      intro hlt
      linarith
    refine Eq.symm (List.eq_nil_iff_forall_not_mem.mpr ?_)
    intro seg hseg
    rw [List.mem_filterMap] at hseg
    obtain ⟨i, hi, hsome⟩ := hseg
    rw [if_neg (fun hc => hall i hi hc.1)] at hsome
    exact Option.noConfusion hsome
  · rw [if_neg hoff, if_pos (by exact ⟨hrep, hint⟩)]
    rw [add_repeatable_loop_spec p (t1 - t0)
      (min p.max_repeats (⌊((t1 - t0) - p.offset_s) / p.repeat_interval_s⌋ + 1))
      (List.range _) existing [] (List.nodup_range _)
      (repeat_ids_distinct p _), List.nil_append]

/-- Witness for the amended C9: markers `t_s=0, t_e=20`, min duration 8,
offset 4, interval 6, `max_repeats` 2: two repeats `f_1, f_2` materialize. -/
theorem add_repeatable_repeats_spec_witness :
    lookupMarker [(chars "t_s", 0), (chars "t_e", 20)] (some (chars "t_s")) = some 0 ∧
    (⟨chars "f", some (chars "t_s"), some (chars "t_e"), 8, 4, chars "", true, 2,
        6⟩ : CondParams).end_marker = some (chars "t_e") ∧
    chars "t_e" ≠ [] ∧
    List.lookup (chars "t_e") [(chars "t_s", 0), (chars "t_e", 20)] = some 20 ∧
    (8 : ℚ) ≤ 20 - 0 ∧
    (0 : ℚ) < 6 ∧
    (add_repeatable [(chars "t_s", 0), (chars "t_e", 20)] []
        ⟨chars "f", some (chars "t_s"), some (chars "t_e"), 8, 4, chars "", true, 2, 6⟩).2 =
      (List.range (min (2 : ℤ) (⌊(((20 : ℚ) - 0) - 4) / 6⌋ + 1)).toNat).filterMap
        (fun (i : ℕ) =>
          if (4 : ℚ) + (i : ℚ) * 6 < ((20 : ℚ) - 0) - 1/2 ∧
              (if 1 < min (2 : ℤ) (⌊(((20 : ℚ) - 0) - 4) / 6⌋ + 1)
                then chars "f" ++ '_' :: natToChars (i + 1) else chars "f") ∉ ([] : List Str)
          then some ⟨if 1 < min (2 : ℤ) (⌊(((20 : ℚ) - 0) - 4) / 6⌋ + 1)
              then chars "f" ++ '_' :: natToChars (i + 1) else chars "f",
            chars "", some (chars "t_s"), (4 : ℚ) + (i : ℚ) * 6, none⟩
          else none) :=
  ⟨rfl, rfl, by decide, rfl, by norm_num, by norm_num,
    add_repeatable_repeats_spec [(chars "t_s", 0), (chars "t_e", 20)] []
      ⟨chars "f", some (chars "t_s"), some (chars "t_e"), 8, 4, chars "", true, 2, 6⟩
      0 20 (chars "t_e") rfl rfl (by decide) rfl (by norm_num) rfl (by norm_num)⟩

/-- The `condition` dict of a conditional segment definition
(`compose.py::condition_met`): `type` defaults to `"duration_between"`;
`start_marker`/`marker`/`end_marker`/`max_duration_s` may be absent. -/
structure CondSpec where
  ctype : Str := chars "duration_between"
  start_marker : Option Str := none
  marker : Option Str := none
  end_marker : Option Str := none
  min_duration_s : ℚ := 0
  max_duration_s : Option ℚ := none
deriving DecidableEq, Repr

/-- A user-supplied conditional segment definition as consumed by
`_inject_processing_fillers` (`conditional_segments` entries, with the
defaults the source applies via `.get`). -/
structure CondDef where
  id : Str
  condition : CondSpec := {}
  offset_s : ℚ := 0
  text : Str := []
  repeatable : Bool := false
  max_repeats : ℤ := 1
  repeat_interval_s : ℚ := 0
deriving DecidableEq, Repr

/-- Python `a or b` on two optional strings: the first operand wins when it is
truthy (present and non-empty). -/
def pyOrStr (a b : Option Str) : Option Str :=
  match a with
  | some s => if s = [] then b else some s
  | none => b

/-- `compose.py::condition_met`: `marker_exists` tests membership of
`start_marker or marker`; `duration_between`/`duration_range` require both
markers present and `min_duration_s ≤ duration ≤ max_duration_s` (upper bound
only when given); any other type is false. -/
def condition_met (markers : List (Str × ℚ)) (c : CondSpec) : Bool :=
  if c.ctype = chars "marker_exists" then
    (lookupMarker markers (pyOrStr c.start_marker c.marker)).isSome
  else if c.ctype = chars "duration_between" ∨ c.ctype = chars "duration_range" then
    match lookupMarker markers c.start_marker, lookupMarker markers c.end_marker with
    | some ts, some te =>
      if te - ts < c.min_duration_s then false
      else
        match c.max_duration_s with
        | some mx => if mx < te - ts then false
          else true
        | none => true
    | _, _ => false
  else false

/-- The `for seg in conditional_segments` loop of
`_inject_processing_fillers`: each definition whose condition holds is passed
to `add_repeatable` with its own parameters (`end_marker` suppressed for
`marker_exists` conditions), threading `existing_ids`. -/
def inject_user_loop (markers : List (Str × ℚ)) :
    List CondDef → List Str → List SegDef → List Str × List SegDef
  | [], ex, acc => (ex, acc)
  | seg :: rest, ex, acc =>
    if condition_met markers seg.condition then
      let res := add_repeatable markers ex
        ⟨seg.id, pyOrStr seg.condition.start_marker seg.condition.marker,
          (if seg.condition.ctype ≠ chars "marker_exists" then seg.condition.end_marker
            else none),
          seg.condition.min_duration_s, seg.offset_s, seg.text,
          seg.repeatable, seg.max_repeats, seg.repeat_interval_s⟩
      inject_user_loop markers rest res.1 (acc ++ res.2)
    else inject_user_loop markers rest ex acc

/-- First built-in default filler of `_inject_processing_fillers`:
`processing1_filler`, anchored at `t_processing1_started`, measured against
`t_agent_done_1`, min duration 8 s, offset 4 s, repeatable up to 2 repeats at
a 6 s interval. -/
def default_filler_1 : CondParams :=
  ⟨chars "processing1_filler", some (chars "t_processing1_started"),
    some (chars "t_agent_done_1"), 8, 4,
    chars "The agent is analyzing your connected data sources and building the perfect dashboard layout.",
    true, 2, 6⟩

/-- Second built-in default filler of `_inject_processing_fillers`:
`processing2_filler`, anchored at `t_processing2_started`, measured against
`t_agent_done_2`, min duration 6 s, offset 3 s, not repeatable. -/
def default_filler_2 : CondParams :=
  ⟨chars "processing2_filler", some (chars "t_processing2_started"),
    some (chars "t_agent_done_2"), 6, 3,
    chars "Adding those KPIs seamlessly while preserving all your existing work.",
    false, 1, 0⟩

/-- `compose.py::_inject_processing_fillers`: with a non-empty
`conditional_segments` list the user definitions are processed (and the
defaults are not evaluated at all); with `None` or an empty list (both falsy
in `if conditional_segments:`) the two built-in default fillers are
evaluated. Returns `(segments + added, added)`. -/
def inject_processing_fillers (segments : List SegDef) (markers : List (Str × ℚ))
    (conditional_segments : Option (List CondDef)) : List SegDef × List SegDef :=
  let existing := segments.map SegDef.id
  let added :=
    match conditional_segments with
    | some (c :: cs) => (inject_user_loop markers (c :: cs) existing []).2
    | _ =>
      let r1 := add_repeatable markers existing default_filler_1
      let r2 := add_repeatable markers r1.1 default_filler_2
      r1.2 ++ r2.2
  (segments ++ added, added)

/-- C10, counterexample: with no conditional definitions and an empty marker
map, the injector leaves the segment set unchanged (both default fillers are
evaluated but their anchor markers are absent, so nothing is added) —
contradicting "it does not leave the segment set unchanged". -/
theorem inject_processing_fillers_unchanged_counterexample :
    inject_processing_fillers [⟨chars "intro", chars "hi", none, 0, none⟩] [] none =
      ([⟨chars "intro", chars "hi", none, 0, none⟩], []) := by
  decide

/-- C10, amended: with `None` or an empty conditional list the injector
evaluates exactly the two built-in default fillers (`processing1_filler`:
anchor `t_processing1_started` vs `t_agent_done_1`, min 8 s, offset 4 s,
repeatable, 2 repeats max, 6 s interval; `processing2_filler`: anchor
`t_processing2_started` vs `t_agent_done_2`, min 6 s, offset 3 s,
non-repeatable), threading the existing-id set, and appends whatever they
produce (possibly nothing); a non-empty user-supplied list completely
replaces the defaults: only the user definitions are evaluated. -/
theorem inject_processing_fillers_defaults_or_replace (segments : List SegDef)
    (markers : List (Str × ℚ)) :
    (inject_processing_fillers segments markers none =
      (segments ++ ((add_repeatable markers (segments.map SegDef.id) default_filler_1).2 ++
        (add_repeatable markers
          (add_repeatable markers (segments.map SegDef.id) default_filler_1).1
          default_filler_2).2),
       (add_repeatable markers (segments.map SegDef.id) default_filler_1).2 ++
        (add_repeatable markers
          (add_repeatable markers (segments.map SegDef.id) default_filler_1).1
          default_filler_2).2)) ∧
    (inject_processing_fillers segments markers (some []) =
      inject_processing_fillers segments markers none) ∧
    (∀ (c : CondDef) (cs : List CondDef),
      inject_processing_fillers segments markers (some (c :: cs)) =
        (segments ++ (inject_user_loop markers (c :: cs) (segments.map SegDef.id) []).2,
         (inject_user_loop markers (c :: cs) (segments.map SegDef.id) []).2)) :=
  ⟨rfl, rfl, fun _ _ => rfl⟩

/-- Python `needle in hay` on strings: substring containment. -/
def strContains (hay needle : Str) : Bool :=
  if needle.isPrefixOf hay then true
  else
    match hay with
    | [] => false
    | _ :: t => strContains t needle

/-- Python `s.replace(old, "")`, structurally recursive on a fuel bound:
each recursive step consumes at least one character of `s`, so `s.length`
steps always suffice; the fuel-0 fallback is only reached on the empty
string. -/
def strRemoveAllFuel (old : Str) : ℕ → Str → Str
  | 0, s => s
  | fuel + 1, s =>
    if old = [] then s
    else if old.isPrefixOf s then strRemoveAllFuel old fuel (s.drop old.length)
    else
      match s with
      | [] => []
      | c :: t => c :: strRemoveAllFuel old fuel t

/-- Python `s.replace(old, "")` for the patterns used by the lenient
resolver: remove every (left-to-right, non-overlapping) occurrence of
`old`. -/
def strRemoveAll (s old : Str) : Str := strRemoveAllFuel old s.length s

/-- Python `s.lower()` (per-character, as used on ASCII marker names). -/
def lowerStr (s : Str) : Str := s.map Char.toLower

/-- The `anchor_base` of `calculate_segment_times_lenient`: the anchor with
every occurrence of `_view`, `_loaded`, `_ready` removed (Python
`str.replace` removes all occurrences, not only suffixes). -/
def anchorBase (a : Str) : Str :=
  strRemoveAll (strRemoveAll (strRemoveAll a (chars "_view")) (chars "_loaded"))
    (chars "_ready")

/-- Strategies 1-3 of `timeline.py::calculate_segment_times_lenient` for one
segment, in source order: (1) exact anchor lookup, (2) fuzzy match — first
marker whose name contains `anchor_base` or is contained in the (unmodified)
anchor, (3) inference — first marker whose lowercased name contains the
lowercased segment id. Strategies 1-2 require a truthy anchor, strategy 3 a
truthy id. -/
def lenient_resolve_time (markers : List (Str × ℚ)) (seg : SegDef) : Option ℚ :=
  let s12 : Option ℚ :=
    match seg.anchor with
    | none => none
    | some a =>
      if a = [] then none
      else
        match List.lookup a markers with
        | some t => some (t + seg.offset_s)
        | none =>
          match markers.find? (fun kv => strContains kv.1 (anchorBase a) ||
              strContains a kv.1) with
          | some kv => some (kv.2 + seg.offset_s)
          | none => none
  match s12 with
  | some v => some v
  | none =>
    if lowerStr seg.id = [] then none
    else
      match markers.find? (fun kv => strContains (lowerStr kv.1) (lowerStr seg.id)) with
      | some kv => some (kv.2 + seg.offset_s)
      | none => none

/-- The name appended to the missing list for an unresolved segment:
`anchor or f"(segment: {seg_id})"`. -/
def missing_name (seg : SegDef) : Str :=
  match seg.anchor with
  | some a => if a = [] then chars "(segment: " ++ lowerStr seg.id ++ [')'] else a
  | none => chars "(segment: " ++ lowerStr seg.id ++ [')']

/-- `timeline.py::calculate_segment_times_lenient`: resolve each segment with
the three-strategy matcher (never raising); resolved segments are positioned
at `max(0, marker_time + offset)`, unresolved ones contribute their anchor
(or `(segment: id)`) to the missing list; positioned results are sorted
ascending by `start_time_s`. -/
def lenient_step (markers : List (Str × ℚ)) (acc : List PositionedSegment × List Str)
    (seg : SegDef) : List PositionedSegment × List Str :=
  match lenient_resolve_time markers seg with
  | some v => (acc.1 ++ [⟨seg.id, seg.text, max 0 v, seg.audio_file, 0⟩], acc.2)
  | none => (acc.1, acc.2 ++ [missing_name seg])

def calculate_segment_times_lenient (segments : List SegDef)
    (markers : List (Str × ℚ)) : List PositionedSegment × List Str :=
  let r := segments.foldl (lenient_step markers) ([], [])
  (List.insertionSort byStart r.1, r.2)

/-- The claim's reading of suffix stripping: drop each of `_view`, `_loaded`,
`_ready` when it is a suffix of the anchor. -/
def claimStripSuffix (a sfx : Str) : Str :=
  if sfx.isSuffixOf a then a.take (a.length - sfx.length) else a

/-- The anchor with the three suffixes stripped, per the claim's wording. -/
def claimStripped (a : Str) : Str :=
  claimStripSuffix (claimStripSuffix (claimStripSuffix a (chars "_view"))
    (chars "_loaded")) (chars "_ready")

/-- The claim's fuzzy-match condition: some marker name is a substring of the
suffix-stripped anchor, or vice versa. -/
def claimFuzzyMatch (a m : Str) : Bool :=
  strContains (claimStripped a) m || strContains m (claimStripped a)

/-- C7, counterexample: markers `{x_view: 5}`, one segment with id `Z` and
anchor `t_x_view`. Per the claim all three strategies fail (no exact match;
the stripped anchor `t_x` neither contains nor is contained in `x_view`; the
id `z` does not occur in `x_view`), so the segment should be omitted and its
anchor reported missing. The code instead fuzzy-matches (`x_view` is a
substring of the unmodified anchor `t_x_view`) and positions the segment:
the missing list is empty and one PositionedSegment is returned. -/
theorem calculate_segment_times_lenient_claim_counterexample :
    (calculate_segment_times_lenient
        [⟨chars "Z", chars "", some (chars "t_x_view"), 0, none⟩]
        [(chars "x_view", 5)]).2 = [] ∧
    (calculate_segment_times_lenient
        [⟨chars "Z", chars "", some (chars "t_x_view"), 0, none⟩]
        [(chars "x_view", 5)]).1.length = 1 ∧
    List.lookup (chars "t_x_view") [(chars "x_view", (5 : ℚ))] = none ∧
    claimFuzzyMatch (chars "t_x_view") (chars "x_view") = false ∧
    strContains (lowerStr (chars "x_view")) (lowerStr (chars "Z")) = false := by
  refine ⟨by decide, by decide, by decide, by decide, by decide⟩

/-- Strategy 1 of the lenient resolver, stated declaratively: exact lookup of
a truthy anchor. -/
def strategy_exact (markers : List (Str × ℚ)) (seg : SegDef) : Option ℚ :=
  match seg.anchor with
  | some a => if a = [] then none else (List.lookup a markers).map (· + seg.offset_s)
  | none => none

/-- Strategy 2 of the lenient resolver, stated declaratively: the first marker
(in map order) whose name contains the anchor with all `_view`/`_loaded`/
`_ready` occurrences removed, or whose name is contained in the unmodified
anchor. -/
def strategy_fuzzy (markers : List (Str × ℚ)) (seg : SegDef) : Option ℚ :=
  match seg.anchor with
  | some a =>
    if a = [] then none
    else (markers.find? (fun kv => strContains kv.1 (anchorBase a) ||
      strContains a kv.1)).map (fun kv => kv.2 + seg.offset_s)
  | none => none

/-- Strategy 3 of the lenient resolver, stated declaratively: the first marker
whose lowercased name contains the lowercased (truthy) segment id. -/
def strategy_infer (markers : List (Str × ℚ)) (seg : SegDef) : Option ℚ :=
  if lowerStr seg.id = [] then none
  else (markers.find? (fun kv => strContains (lowerStr kv.1) (lowerStr seg.id))).map
    (fun kv => kv.2 + seg.offset_s)

/-- First-match composition of the three strategies, in order. -/
def lenient_first_match (markers : List (Str × ℚ)) (seg : SegDef) : Option ℚ :=
  ((strategy_exact markers seg).orElse (fun _ => strategy_fuzzy markers seg)).orElse
    (fun _ => strategy_infer markers seg)

lemma lenient_resolve_eq (markers : List (Str × ℚ)) (seg : SegDef) :
    lenient_resolve_time markers seg = lenient_first_match markers seg := by
  have hmap : (match List.find? (fun kv => strContains (lowerStr kv.1) (lowerStr seg.id))
        markers with
      | some kv => some (kv.2 + seg.offset_s)
      | none => (none : Option ℚ)) =
      Option.map (fun kv => kv.2 + seg.offset_s)
        (List.find? (fun kv => strContains (lowerStr kv.1) (lowerStr seg.id)) markers) := by
    cases List.find? (fun kv => strContains (lowerStr kv.1) (lowerStr seg.id)) markers <;> rfl
  unfold lenient_resolve_time lenient_first_match strategy_exact strategy_fuzzy
    strategy_infer
  cases seg.anchor with
  | none => simp [Option.orElse, hmap]
  | some a =>
    by_cases ha : a = []
    · simp [ha, Option.orElse, hmap]
    · simp only [if_neg ha]
      cases List.lookup a markers with
      | some t => simp [Option.orElse]
      | none =>
        simp only [Option.map_none']
        cases markers.find? (fun kv => strContains kv.1 (anchorBase a) ||
            strContains a kv.1) with
        | some kv => simp [Option.orElse]
        | none => simp [Option.orElse, hmap]

/-- The PositionedSegment the lenient resolver produces for a resolvable
segment. -/
def lenient_positioned_of (markers : List (Str × ℚ)) (seg : SegDef) :
    Option PositionedSegment :=
  (lenient_first_match markers seg).map
    (fun v => ⟨seg.id, seg.text, max 0 v, seg.audio_file, 0⟩)

/-- The missing-list entry the lenient resolver produces for an unresolvable
segment. -/
def lenient_missing_of (markers : List (Str × ℚ)) (seg : SegDef) : Option Str :=
  match lenient_first_match markers seg with
  | some _ => none
  | none => some (missing_name seg)

lemma lenient_foldl (markers : List (Str × ℚ)) (segments : List SegDef) :
    ∀ acc : List PositionedSegment × List Str,
    segments.foldl (lenient_step markers) acc =
      (acc.1 ++ segments.filterMap (fun seg => (lenient_resolve_time markers seg).map
        (fun v => (⟨seg.id, seg.text, max 0 v, seg.audio_file, 0⟩ : PositionedSegment))),
       acc.2 ++ segments.filterMap (fun seg =>
        match lenient_resolve_time markers seg with
        | some _ => none
        | none => some (missing_name seg))) := by
  induction segments with
  | nil => intro acc; simp
  | cons seg rest ih =>
    intro acc
    rw [List.foldl_cons, ih]
    cases hres : lenient_resolve_time markers seg with
    | some v =>
      simp only [lenient_step, hres, List.filterMap_cons, Option.map_some']
      rw [List.append_assoc, List.singleton_append]
    | none =>
      simp only [lenient_step, hres, List.filterMap_cons, Option.map_none']
      rw [List.append_assoc, List.singleton_append]

lemma lenient_counts (markers : List (Str × ℚ)) (segments : List SegDef) :
    (segments.filterMap (lenient_positioned_of markers)).length +
      (segments.filterMap (lenient_missing_of markers)).length = segments.length := by
  induction segments with
  | nil => rfl
  | cons seg rest ih =>
    cases hres : lenient_first_match markers seg with
    | some v =>
      simp only [List.filterMap_cons, lenient_positioned_of, lenient_missing_of, hres,
        Option.map_some', List.length_cons]
      omega
    | none =>
      simp only [List.filterMap_cons, lenient_positioned_of, lenient_missing_of, hres,
        Option.map_none', List.length_cons]
      omega

/-- C7, amended: the lenient resolver never fails; each segment is resolved by
the first of three strategies to succeed — (1) exact match of a truthy anchor,
(2) fuzzy match: the first marker whose name contains the anchor with all
occurrences of `_view`, `_loaded`, `_ready` removed, or whose name is a
substring of the unmodified anchor, (3) inference: the first marker whose
name contains the segment's id case-insensitively — positioned at
`max(0, marker_time + offset_s)`; segments for which all three fail are
omitted and their anchor (or `(segment: id)`) appended, in input order, to
the missing list; the positioned result is sorted ascending by
`start_time_s`, and positioned and missing segments together exhaust the
input. -/
theorem calculate_segment_times_lenient_spec (segments : List SegDef)
    (markers : List (Str × ℚ)) :
    calculate_segment_times_lenient segments markers =
      (List.insertionSort byStart (segments.filterMap (lenient_positioned_of markers)),
       segments.filterMap (lenient_missing_of markers)) ∧
    List.Sorted byStart (calculate_segment_times_lenient segments markers).1 ∧
    (segments.filterMap (lenient_positioned_of markers)).length +
      (segments.filterMap (lenient_missing_of markers)).length = segments.length := by
  have hfold := lenient_foldl markers segments ([], [])
  have hpos : segments.filterMap (fun seg => (lenient_resolve_time markers seg).map
      (fun v => (⟨seg.id, seg.text, max 0 v, seg.audio_file, 0⟩ : PositionedSegment))) =
      segments.filterMap (lenient_positioned_of markers) :=
    List.filterMap_congr (fun seg _ => by rw [lenient_positioned_of, lenient_resolve_eq])
  have hmiss : segments.filterMap (fun seg =>
      match lenient_resolve_time markers seg with
      | some _ => none
      | none => some (missing_name seg)) =
      segments.filterMap (lenient_missing_of markers) :=
    List.filterMap_congr (fun seg _ => by rw [lenient_missing_of, lenient_resolve_eq])
  have hmain : calculate_segment_times_lenient segments markers =
      (List.insertionSort byStart (segments.filterMap (lenient_positioned_of markers)),
       segments.filterMap (lenient_missing_of markers)) := by
    rw [calculate_segment_times_lenient]
    rw [hfold]
    simp only [List.nil_append]
    rw [hpos, hmiss]
  refine ⟨hmain, ?_, lenient_counts markers segments⟩
  rw [hmain]
  exact List.sorted_insertionSort byStart _

/-- One entry of the `segments` list built inside
`vg_edit.py::_calculate_time_mapping` (`{"start", "end", "type", "speed"}`;
`end_s` models the `"end"` key). -/
structure MappingSegment where
  start : ℚ
  end_s : ℚ
  gtype : Str
  speed : ℚ
deriving DecidableEq, Repr

/-- The ordering used by `segments.sort(key=lambda x: x["start"])`. -/
def bySegStart (a b : MappingSegment) : Prop := a.start ≤ b.start

instance : DecidableRel bySegStart := fun a b => inferInstanceAs (Decidable (_ ≤ _))

instance : IsTotal MappingSegment bySegStart := ⟨fun a b => le_total _ _⟩

instance : IsTrans MappingSegment bySegStart := ⟨fun _ _ _ => le_trans⟩

/-- The gap/voice segment list of `_calculate_time_mapping`, sorted by start. -/
def mapping_segments (gaps voice : List (ℚ × ℚ)) (factor : ℚ) : List MappingSegment :=
  List.insertionSort bySegStart
    (gaps.map (fun g => ⟨g.1, g.2, chars "gap", factor⟩) ++
      voice.map (fun v => ⟨v.1, v.2, chars "voice", 1⟩))

/-- `all_times = sorted(set([0, video_duration] + starts + ends))`. -/
def all_times (gaps voice : List (ℚ × ℚ)) (video_duration factor : ℚ) : List ℚ :=
  List.insertionSort (· ≤ ·)
    (((0 : ℚ) :: video_duration ::
      ((mapping_segments gaps voice factor).map MappingSegment.start ++
        (mapping_segments gaps voice factor).map MappingSegment.end_s)).dedup)

/-- The `is_gap` test of `_calculate_time_mapping`: some gap covers the whole
sub-interval (`g[0] <= orig_start and g[1] >= orig_end`). -/
def is_gap (gaps : List (ℚ × ℚ)) (s e : ℚ) : Bool :=
  gaps.any (fun g => decide (g.1 ≤ s ∧ e ≤ g.2))

/-- The breakpoint-accumulation loop of `_calculate_time_mapping`: walk
consecutive boundary pairs, compress gap sub-intervals by `factor`, and
append `(orig_end, running_new_time)` for each positive-length piece. -/
def build_breakpoints (gaps : List (ℚ × ℚ)) (factor : ℚ) :
    ℚ → List ℚ → List (ℚ × ℚ)
  | _, [] => []
  | _, [_] => []
  | cum, t0 :: t1 :: rest =>
    let d := t1 - t0
    if d ≤ 0 then build_breakpoints gaps factor cum (t1 :: rest)
    else
      let nd := if is_gap gaps t0 t1 then d / factor else d
      (t1, cum + nd) :: build_breakpoints gaps factor (cum + nd) (t1 :: rest)

/-- The result dict of `_calculate_time_mapping`. -/
structure TimeMapping where
  breakpoints : List (ℚ × ℚ)
  original_duration : ℚ
  new_duration : ℚ
  factor : ℚ
deriving DecidableEq, Repr

/-- `vg_edit.py::_calculate_time_mapping`: breakpoints start at `(0, 0)` and
accumulate over the sorted deduplicated boundary list. -/
def calculate_time_mapping (gaps voice : List (ℚ × ℚ))
    (video_duration factor : ℚ) : TimeMapping :=
  let bps := ((0 : ℚ), (0 : ℚ)) ::
    build_breakpoints gaps factor 0 (all_times gaps voice video_duration factor)
  { breakpoints := bps, original_duration := video_duration,
    new_duration := (bps.getLast (List.cons_ne_nil _ _)).2, factor := factor }

/-- Strict increase in both coordinates of consecutive breakpoints. -/
def bpLt (p q : ℚ × ℚ) : Prop := p.1 < q.1 ∧ p.2 < q.2

lemma build_breakpoints_chain (gaps : List (ℚ × ℚ)) (factor : ℚ) (hf : 0 < factor) :
    ∀ (ts : List ℚ) (t0 cum : ℚ), List.Chain (· < ·) t0 ts →
      List.Chain bpLt (t0, cum) (build_breakpoints gaps factor cum (t0 :: ts)) := by
  intro ts
  induction ts with
  | nil => intro t0 cum _; exact List.Chain.nil
  | cons t1 rest ih =>
    intro t0 cum hch
    cases hch with
    | cons h01 htail =>
      have hd : ¬ (t1 - t0 ≤ 0) := by simp only [not_le, sub_pos]; exact h01
      rw [build_breakpoints, if_neg hd]
      have hnd : 0 < (if is_gap gaps t0 t1 then (t1 - t0) / factor else t1 - t0) := by
        by_cases hg : is_gap gaps t0 t1
        · rw [if_pos hg]; exact div_pos (by linarith) hf
        · rw [if_neg hg]; linarith
      exact List.Chain.cons ⟨h01, by linarith⟩ (ih t1 (cum + _) htail)

lemma map_time_go_lower (t : ℚ) :
    ∀ (rest : List (ℚ × ℚ)) (prev : ℚ × ℚ), List.Chain bpLt prev rest → prev.1 ≤ t →
      prev.2 ≤ map_time_go t prev rest := by
  intro rest
  induction rest with
  | nil => intro prev _ _; exact le_refl _
  | cons b r ih =>
    intro prev hch hle
    obtain ⟨o, n⟩ := b
    cases hch with
    | cons hpb htail =>
      obtain ⟨ho, hn⟩ := hpb
      rw [map_time_go]
      by_cases hto : t ≤ o
      · rw [if_pos hto, if_neg (ne_of_gt ho)]
        have hr : 0 ≤ (t - prev.1) / (o - prev.1) :=
          div_nonneg (by linarith) (by linarith)
        nlinarith
      · rw [if_neg hto]
        have := ih (o, n) htail (by push_neg at hto; linarith)
        calc prev.2 ≤ n := le_of_lt hn
          _ ≤ map_time_go t (o, n) r := this

lemma map_time_go_mono (a b : ℚ) (hab : a ≤ b) :
    ∀ (rest : List (ℚ × ℚ)) (prev : ℚ × ℚ), List.Chain bpLt prev rest →
      map_time_go a prev rest ≤ map_time_go b prev rest := by
  intro rest
  induction rest with
  | nil => intro prev _; exact le_refl _
  | cons c r ih =>
    intro prev hch
    obtain ⟨o, n⟩ := c
    cases hch with
    | cons hpb htail =>
      obtain ⟨ho, hn⟩ := hpb
      rw [map_time_go, map_time_go]
      by_cases hbo : b ≤ o
      · rw [if_pos (le_trans hab hbo), if_pos hbo, if_neg (ne_of_gt ho), if_neg (ne_of_gt ho)]
        have hdiv : (a - prev.1) / (o - prev.1) ≤ (b - prev.1) / (o - prev.1) :=
          div_le_div_of_nonneg_right (by linarith) (by linarith)
        have hmul := mul_le_mul_of_nonneg_right hdiv (by linarith : (0 : ℚ) ≤ n - prev.2)
        linarith
      · by_cases hao : a ≤ o
        · rw [if_pos hao, if_neg hbo, if_neg (ne_of_gt ho)]
          have hint : prev.2 + (a - prev.1) / (o - prev.1) * (n - prev.2) ≤ n := by
            have hr1 : (a - prev.1) / (o - prev.1) ≤ 1 := by
              rw [div_le_one (by linarith)]
              linarith
            nlinarith
          have hlow : n ≤ map_time_go b (o, n) r := by
            push_neg at hbo
            exact map_time_go_lower b r (o, n) htail (le_of_lt hbo)
          linarith
        · rw [if_neg hao, if_neg hbo]
          exact ih (o, n) htail

lemma all_times_mem_nonneg (gaps voice : List (ℚ × ℚ)) (D factor : ℚ) (hD : 0 ≤ D)
    (hb : ∀ p ∈ gaps ++ voice, 0 ≤ p.1 ∧ p.1 ≤ D ∧ 0 ≤ p.2 ∧ p.2 ≤ D) :
    ∀ x ∈ all_times gaps voice D factor, 0 ≤ x := by
  intro x hx
  rw [all_times, List.mem_insertionSort, List.mem_dedup] at hx
  have hseg : ∀ seg ∈ mapping_segments gaps voice factor,
      0 ≤ seg.start ∧ 0 ≤ seg.end_s := by
    intro seg hseg
    rw [mapping_segments, List.mem_insertionSort, List.mem_append] at hseg
    rcases hseg with hg | hv
    · obtain ⟨g, hgm, rfl⟩ := List.mem_map.mp hg
      have := hb g (List.mem_append.mpr (Or.inl hgm))
      exact ⟨this.1, this.2.2.1⟩
    · obtain ⟨v, hvm, rfl⟩ := List.mem_map.mp hv
      have := hb v (List.mem_append.mpr (Or.inr hvm))
      exact ⟨this.1, this.2.2.1⟩
  rcases List.mem_cons.mp hx with rfl | hx
  · exact le_refl 0
  · rcases List.mem_cons.mp hx with rfl | hx
    · exact hD
    · rcases List.mem_append.mp hx with hs | he
      · obtain ⟨seg, hmem, rfl⟩ := List.mem_map.mp hs
        exact (hseg seg hmem).1
      · obtain ⟨seg, hmem, rfl⟩ := List.mem_map.mp he
        exact (hseg seg hmem).2

lemma all_times_zero_head (gaps voice : List (ℚ × ℚ)) (D factor : ℚ) (hD : 0 ≤ D)
    (hb : ∀ p ∈ gaps ++ voice, 0 ≤ p.1 ∧ p.1 ≤ D ∧ 0 ≤ p.2 ∧ p.2 ≤ D) :
    ∃ tail, all_times gaps voice D factor = 0 :: tail := by
  have h0 : (0 : ℚ) ∈ all_times gaps voice D factor := by
    rw [all_times, List.mem_insertionSort, List.mem_dedup]
    exact List.mem_cons_self _ _
  have hs : List.Sorted (· ≤ ·) (all_times gaps voice D factor) :=
    List.sorted_insertionSort _ _
  have hnn := all_times_mem_nonneg gaps voice D factor hD hb
  cases hl : all_times gaps voice D factor with
  | nil => rw [hl] at h0; cases h0
  | cons h t =>
    rw [hl] at h0 hs hnn
    have hh0 : h ≤ 0 := by
      rcases List.mem_cons.mp h0 with heq | hmem
      · exact le_of_eq heq.symm
      · exact List.rel_of_sorted_cons hs 0 hmem
    have h0h : 0 ≤ h := hnn h (List.mem_cons_self _ _)
    have : h = 0 := le_antisymm hh0 h0h
    exact ⟨t, by rw [this]⟩

lemma all_times_chain_lt (gaps voice : List (ℚ × ℚ)) (D factor : ℚ) :
    List.Chain' (· < ·) (all_times gaps voice D factor) := by
  have hs : List.Sorted (· ≤ ·) (all_times gaps voice D factor) :=
    List.sorted_insertionSort _ _
  have hnd : (all_times gaps voice D factor).Nodup :=
    (List.perm_insertionSort _ _).nodup_iff.mpr (List.nodup_dedup _)
  have hpw : List.Pairwise (· < ·) (all_times gaps voice D factor) :=
    (hs.and hnd).imp (fun h => lt_of_le_of_ne h.1 h.2)
  exact hpw.chain'

/-- C3: for breakpoints produced by `_calculate_time_mapping` from gaps and
voiceover ranges contained in `[0, video_duration]` with `factor > 1`, the
breakpoints are strictly increasing in both coordinates, and
`map_time_with_breakpoints` is monotone: `a < b` implies
`map_time(a) ≤ map_time(b)`. -/
theorem calculate_time_mapping_monotone (gaps voice : List (ℚ × ℚ))
    (D factor : ℚ) (hf : 1 < factor) (hD : 0 ≤ D)
    (hb : ∀ p ∈ gaps ++ voice, 0 ≤ p.1 ∧ p.1 ≤ D ∧ 0 ≤ p.2 ∧ p.2 ≤ D)
    (a b : ℚ) (hab : a < b) :
    List.Chain' bpLt (calculate_time_mapping gaps voice D factor).breakpoints ∧
    map_time_with_breakpoints a (calculate_time_mapping gaps voice D factor).breakpoints ≤
      map_time_with_breakpoints b (calculate_time_mapping gaps voice D factor).breakpoints := by
  obtain ⟨tail, htail⟩ := all_times_zero_head gaps voice D factor hD hb
  have hchain : List.Chain (· < ·) 0 tail := by
    have := all_times_chain_lt gaps voice D factor
    rw [htail] at this
    exact this
  have hbps : List.Chain bpLt ((0 : ℚ), (0 : ℚ))
      (build_breakpoints gaps factor 0 (all_times gaps voice D factor)) := by
    rw [htail]
    exact build_breakpoints_chain gaps factor (by linarith) tail 0 0 hchain
  constructor
  · show List.Chain' bpLt (((0 : ℚ), (0 : ℚ)) :: _)
    exact hbps
  · show map_time_go a ((0 : ℚ), (0 : ℚ)) _ ≤ map_time_go b ((0 : ℚ), (0 : ℚ)) _
    exact map_time_go_mono a b (le_of_lt hab) _ _ hbps

/-- Witness for C3 at the spec's own gap scenario: video of 100 s, one
protected range `(40, 50)`, gaps `(0, 40)` and `(50, 100)`, factor 3. -/
theorem calculate_time_mapping_monotone_witness :
    ((1 : ℚ) < 3) ∧ ((0 : ℚ) ≤ 100) ∧
    (∀ p ∈ [((0 : ℚ), (40 : ℚ)), (50, 100)] ++ [((40 : ℚ), (50 : ℚ))],
      0 ≤ p.1 ∧ p.1 ≤ 100 ∧ 0 ≤ p.2 ∧ p.2 ≤ 100) ∧
    ((45 : ℚ) < 60) ∧
    (List.Chain' bpLt
      (calculate_time_mapping [(0, 40), (50, 100)] [(40, 50)] 100 3).breakpoints ∧
    map_time_with_breakpoints 45
        (calculate_time_mapping [(0, 40), (50, 100)] [(40, 50)] 100 3).breakpoints ≤
      map_time_with_breakpoints 60
        (calculate_time_mapping [(0, 40), (50, 100)] [(40, 50)] 100 3).breakpoints) :=
  ⟨by norm_num, by norm_num, by decide, by norm_num,
    calculate_time_mapping_monotone [(0, 40), (50, 100)] [(40, 50)] 100 3
      (by norm_num) (by norm_num) (by decide) 45 60 (by norm_num)⟩

/-- Python `sep.join(lines)`. -/
def pyJoin (sep : Str) : List Str → Str
  | [] => []
  | [l] => l
  | l :: l2 :: ls => l ++ sep ++ pyJoin sep (l2 :: ls)

/-- Python `s.split(c)` for a one-character separator (`''.split` yields one
empty part). -/
def splitOnChar (sep : Char) : Str → List Str
  | [] => [[]]
  | c :: cs =>
    if c = sep then [] :: splitOnChar sep cs
    else
      match splitOnChar sep cs with
      | [] => [[c]]
      | h :: t => (c :: h) :: t

/-- The whitespace stripped by Python `str.strip()` (the characters occurring
in this pipeline). -/
def isPySpace (c : Char) : Bool := c = ' ' || c = '\n' || c = '\t' || c = '\r'

/-- Python `str.strip()`. -/
def pyStrip (s : Str) : Str :=
  (((s.dropWhile isPySpace).reverse.dropWhile isPySpace)).reverse

/-- Index of the first occurrence of `pat` as a contiguous substring. -/
def findSubIdx (pat : Str) (s : Str) : Option ℕ :=
  if pat.isPrefixOf s then some 0
  else
    match s with
    | [] => none
    | _ :: t => (findSubIdx pat t).map (· + 1)

/-- Model of `re.search(r'PRE(.*?)POST', s, re.DOTALL)` group 1: the shortest
span after the first occurrence of `PRE` that ends at the next occurrence of
`POST`. (When `PRE` occurs but `POST` never follows, the regex would try
later occurrences of `PRE`; the inputs this model is used on contain a single
occurrence of each sentinel, where both behaviours agree.) -/
def extractBetween (pre post s : Str) : Option Str :=
  match findSubIdx pre s with
  | none => none
  | some i =>
    let rest := s.drop (i + pre.length)
    match findSubIdx post rest with
    | none => none
    | some j => some (rest.take j)

/-- Python `f"{float(value):.2f}"` on an exact rational: round to integer
hundredths and print sign, integer digits, a dot, and two fractional digits.
(CPython rounds the binary double half-to-even; this exact-rational embedding
rounds halves up. The two agree except on exact decimal halves, where the
spec under verification accepts either result.) -/
def format_2f (v : ℚ) : Str :=
  let n : ℤ := ⌊v * 100 + 1/2⌋
  (if n < 0 then ['-'] else []) ++ natToChars (n.natAbs / 100) ++
    '.' :: [Nat.digitChar (n.natAbs % 100 / 10), Nat.digitChar (n.natAbs % 10)]

/-- Rounding to two decimal places as performed by `format_2f`. -/
def round2 (v : ℚ) : ℚ := (⌊v * 100 + 1/2⌋ : ℚ) / 100

/-- One data row of the marker table: `f"| {key} | {float(value):.2f} |"`. -/
def marker_row (k : Str) (v : ℚ) : Str :=
  chars "| " ++ k ++ chars " | " ++ format_2f v ++ chars " |"

/-- The ordering of `sorted(markers.items(), key=lambda x: x[1])`. -/
def byMarkerTime (a b : Str × ℚ) : Prop := a.2 ≤ b.2

instance : DecidableRel byMarkerTime := fun a b => inferInstanceAs (Decidable (_ ≤ _))

instance : IsTotal (Str × ℚ) byMarkerTime := ⟨fun a b => le_total _ _⟩

instance : IsTrans (Str × ℚ) byMarkerTime := ⟨fun _ _ _ => le_trans⟩

def tm_start : Str := chars "<!-- TIMELINE_MARKERS_START -->"

def tm_end : Str := chars "<!-- TIMELINE_MARKERS_END -->"

def tm_header : Str := chars "| Marker | Time (s) |"

def tm_sep : Str := chars "|--------|----------|"

/-- `timeline.py::markers_to_md_block`: the marker table as a markdown block,
entries sorted ascending by time, underscore-prefixed names skipped when
`exclude_internal` (the marker values are floats, so the `float(value)`
formatting branch always applies). -/
def markers_to_md_block (markers : List (Str × ℚ))
    (exclude_internal : Bool := true) : Str :=
  pyJoin ['\n'] ([tm_start, tm_header, tm_sep] ++
    (List.insertionSort byMarkerTime markers).filterMap (fun kv =>
      if exclude_internal ∧ kv.1.head? = some '_' then none
      else some (marker_row kv.1 kv.2)) ++ [tm_end])

/-- The character class kept by `re.sub(r'[^0-9.\-]+', '', time_str)`. -/
def isFloatChar (c : Char) : Bool := c.isDigit || c = '.' || c = '-'

/-- Python `float(s)` restricted to strings over digits, `.` and `-` (the
only characters surviving the `re.sub` filter): an optional leading minus,
then digits with at most one dot and at least one digit; anything else
raises (returns `none`). -/
def pyFloatCore (s : Str) : Option ℚ :=
  if s.any (· = '-') then none
  else
    match splitOnChar '.' s with
    | [ip] => if ip ≠ [] ∧ ip.all Char.isDigit then some (parseNatChars ip) else none
    | [ip, fp] =>
      if ip ++ fp ≠ [] ∧ ip.all Char.isDigit ∧ fp.all Char.isDigit
      then some ((parseNatChars ip : ℚ) + (parseNatChars fp : ℚ) / (10 : ℚ) ^ fp.length)
      else none
    | _ => none

def pyFloat (s : Str) : Option ℚ :=
  match s with
  | '-' :: rest => (pyFloatCore rest).map Neg.neg
  | _ => pyFloatCore s

/-- Python dict assignment `markers[k] = v`: replace in place when the key
exists, else append. -/
def dictInsert (m : List (Str × ℚ)) (k : Str) (v : ℚ) : List (Str × ℚ) :=
  if (List.lookup k m).isSome
  then m.map (fun kv => if kv.1 = k then (k, v) else kv)
  else m ++ [(k, v)]

/-- The per-line body of `_parse_timeline_markers_from_md`: strip, skip
blank/separator/header lines and lines without `|`, split the rest on `|`,
strip and drop empty cells, and on ≥ 2 cells parse the time and assign. -/
def process_line (markers : List (Str × ℚ)) (line : Str) : List (Str × ℚ) :=
  let l := pyStrip line
  if l = [] then markers
  else if (chars "|--").isPrefixOf l then markers
  else if (chars "| Marker").isPrefixOf l then markers
  else if ¬ l.any (· = '|') then markers
  else
    match ((splitOnChar '|' l).map pyStrip).filter (· ≠ []) with
    | k :: v :: _ =>
      match pyFloat (v.filter isFloatChar) with
      | some x => dictInsert markers k x
      | none => markers
    | _ => markers

/-- `timeline.py::_parse_timeline_markers_from_md`: take the lines between
the sentinel comments when present (else all lines) and fold them into a
marker dict. -/
def parse_timeline_markers_from_md (md : Str) : List (Str × ℚ) :=
  let lines :=
    match extractBetween tm_start tm_end md with
    | some inner => splitOnChar '\n' (pyStrip inner)
    | none => splitOnChar '\n' md
  lines.foldl process_line []

lemma getLast?_mem_of_eq {l : Str} {a : Char} (h : l.getLast? = some a) : a ∈ l := by
  cases l with
  | nil => cases h
  | cons x xs =>
    rw [List.getLast?_eq_getLast _ (List.cons_ne_nil x xs)] at h
    have := Option.some.inj h
    rw [← this]
    exact List.getLast_mem _

lemma getLast?_append_of_eq {l₂ : Str} {c : Char} (h : l₂.getLast? = some c)
    (l₁ : Str) : (l₁ ++ l₂).getLast? = some c := by
  rw [List.getLast?_append, h]
  rfl

lemma pyJoin_append_single (sep z : Str) :
    ∀ ls : List Str, ls ≠ [] → pyJoin sep (ls ++ [z]) = pyJoin sep ls ++ sep ++ z := by
  intro ls
  induction ls with
  | nil => intro h; exact absurd rfl h
  | cons l rest ih =>
    intro _
    cases rest with
    | nil => rfl
    | cons l2 rest2 =>
      show pyJoin sep (l :: l2 :: (rest2 ++ [z])) = pyJoin sep (l :: l2 :: rest2) ++ sep ++ z
      have e1 : pyJoin sep (l :: l2 :: (rest2 ++ [z])) =
          l ++ sep ++ pyJoin sep (l2 :: (rest2 ++ [z])) := rfl
      have e2 : pyJoin sep (l :: l2 :: rest2) = l ++ sep ++ pyJoin sep (l2 :: rest2) := rfl
      rw [e1, e2, show l2 :: (rest2 ++ [z]) = (l2 :: rest2) ++ [z] from rfl,
        ih (List.cons_ne_nil _ _)]
      simp [List.append_assoc]

lemma splitOnChar_no_sep (sep : Char) :
    ∀ l : Str, (∀ c ∈ l, c ≠ sep) → splitOnChar sep l = [l] := by
  intro l
  induction l with
  | nil => intro _; rfl
  | cons c cs ih =>
    intro h
    rw [splitOnChar, if_neg (h c (List.mem_cons_self _ _)),
      ih (fun d hd => h d (List.mem_cons_of_mem _ hd))]

lemma splitOnChar_append (sep : Char) :
    ∀ (l r : Str), (∀ c ∈ l, c ≠ sep) →
      splitOnChar sep (l ++ sep :: r) = l :: splitOnChar sep r := by
  intro l
  induction l with
  | nil => intro r _; rw [List.nil_append, splitOnChar, if_pos rfl]
  | cons c cs ih =>
    intro r h
    rw [List.cons_append, splitOnChar, if_neg (h c (List.mem_cons_self _ _)),
      ih r (fun d hd => h d (List.mem_cons_of_mem _ hd))]

lemma pyStrip_eq_self (l : Str) (d : Char) (t : Str) (hl : l = d :: t)
    (hd : isPySpace d = false) (e : Char) (he : l.getLast? = some e)
    (hes : isPySpace e = false) : pyStrip l = l := by
  subst hl
  rw [pyStrip, List.dropWhile_cons, if_neg (by rw [hd]; exact Bool.false_ne_true)]
  have hrev : (d :: t).reverse.head? = some e := by
    rw [List.head?_reverse]
    exact he
  cases hrevl : (d :: t).reverse with
  | nil => rw [hrevl] at hrev; cases hrev
  | cons e' es =>
    rw [hrevl] at hrev
    have he' : e' = e := Option.some.inj hrev
    rw [List.dropWhile_cons, if_neg (by rw [he', hes]; exact Bool.false_ne_true),
      ← hrevl, List.reverse_reverse]

lemma pyStrip_sandwich (l : Str) (c1 c2 : Char) (hc1 : isPySpace c1 = true)
    (hc2 : isPySpace c2 = true) (d : Char) (t : Str) (hl : l = d :: t)
    (hd : isPySpace d = false) (e : Char) (he : l.getLast? = some e)
    (hes : isPySpace e = false) : pyStrip (c1 :: l ++ [c2]) = l := by
  subst hl
  rw [pyStrip, List.cons_append, List.dropWhile_cons, if_pos hc1,
    List.cons_append, List.dropWhile_cons, if_neg (by rw [hd]; exact Bool.false_ne_true)]
  rw [show d :: (t ++ [c2]) = (d :: t) ++ [c2] from rfl, List.reverse_append]
  show (List.dropWhile isPySpace (c2 :: (d :: t).reverse)).reverse = _
  rw [List.dropWhile_cons, if_pos hc2]
  have hrev : (d :: t).reverse.head? = some e := by
    rw [List.head?_reverse]
    exact he
  cases hrevl : (d :: t).reverse with
  | nil => rw [hrevl] at hrev; cases hrev
  | cons e' es =>
    rw [hrevl] at hrev
    have he' : e' = e := Option.some.inj hrev
    rw [List.dropWhile_cons, if_neg (by rw [he', hes]; exact Bool.false_ne_true),
      ← hrevl, List.reverse_reverse]

lemma isPrefixOf_append_self (p u : Str) : p.isPrefixOf (p ++ u) = true := by
  rw [List.isPrefixOf_iff_prefix]
  exact List.prefix_append p u

lemma isPrefixOf_cons_of_head_ne (p : Str) (c : Char) (hp : p.head? = some c)
    (d : Char) (r : Str) (hne : c ≠ d) : p.isPrefixOf (d :: r) = false := by
  cases p with
  | nil => cases hp
  | cons c' p' =>
    have hc : c' = c := Option.some.inj hp
    subst hc
    show (c' == d && p'.isPrefixOf r) = false
    rw [beq_eq_false_iff_ne.mpr hne, Bool.false_and]

lemma findSubIdx_prefix (pat s : Str) (h : pat.isPrefixOf s = true) :
    findSubIdx pat s = some 0 := by
  rw [findSubIdx.eq_def, if_pos h]

lemma findSubIdx_skip (pat : Str) (c : Char) (hc : pat.head? = some c) :
    ∀ (t : Str), c ∉ t → ∀ u, findSubIdx pat (t ++ pat ++ u) = some t.length := by
  intro t
  induction t with
  | nil =>
    intro _ u
    rw [List.nil_append, findSubIdx.eq_def, if_pos (isPrefixOf_append_self pat u)]
    rfl
  | cons d t' ih =>
    intro hni u
    have hne : c ≠ d := fun h => hni (h ▸ List.mem_cons_self d t')
    rw [List.cons_append, List.cons_append, findSubIdx.eq_def,
      if_neg (by rw [isPrefixOf_cons_of_head_ne pat c hc d _ hne]; exact Bool.false_ne_true)]
    show (findSubIdx pat (t' ++ pat ++ u)).map (· + 1) = some (d :: t').length
    rw [ih (fun h => hni (List.mem_cons_of_mem _ h)) u]
    rfl

lemma findSubIdx_skip_end (pat : Str) (c : Char) (hc : pat.head? = some c)
    (t : Str) (hni : c ∉ t) : findSubIdx pat (t ++ pat) = some t.length := by
  have h := findSubIdx_skip pat c hc t hni []
  rwa [List.append_nil] at h

lemma extractBetween_exact (body : Str) (hbody : '<' ∉ body) :
    extractBetween tm_start tm_end (tm_start ++ '\n' :: (body ++ '\n' :: tm_end)) =
      some ('\n' :: body ++ ['\n']) := by
  have hni : '<' ∉ '\n' :: body ++ ['\n'] := by
    intro h
    rcases List.mem_cons.mp h with h | h
    · cases h
    · rcases List.mem_append.mp h with h | h
      · exact hbody h
      · simp at h
  have hsplit : '\n' :: (body ++ '\n' :: tm_end) = ('\n' :: body ++ ['\n']) ++ tm_end := by
    simp [List.append_assoc]
  rw [extractBetween,
    findSubIdx_prefix tm_start _ (isPrefixOf_append_self tm_start _)]
  show (match findSubIdx tm_end ((tm_start ++ '\n' :: (body ++ '\n' :: tm_end)).drop
      (0 + tm_start.length)) with
    | none => none
    | some j => some (((tm_start ++ '\n' :: (body ++ '\n' :: tm_end)).drop
        (0 + tm_start.length)).take j)) = _
  rw [Nat.zero_add, List.drop_left, hsplit,
    findSubIdx_skip_end tm_end '<' rfl _ hni]
  show some ((('\n' :: body ++ ['\n']) ++ tm_end).take ('\n' :: body ++ ['\n']).length) = _
  rw [List.take_left]

/-- The characters that can occur in a serialized marker-table line: table
punctuation, spaces, number characters, and identifier characters. -/
def benignChar (c : Char) : Bool :=
  c = '|' || c = ' ' || c = '.' || c = '-' || c.isAlphanum || c = '_'

/-- A marker name the round-trip theorem supports: non-empty, made of
letters, digits and underscores, not underscore-prefixed (those are filtered
out as internal by the serializer), and without `Marker` as a prefix (the
parser skips any line starting `| Marker` as a header). -/
def goodMarkerName (k : Str) : Bool :=
  !k.isEmpty && k.all (fun c => c.isAlphanum || c = '_') &&
    !(k.head? == some '_') && !((chars "Marker").isPrefixOf k)

lemma digit_benign {c : Char} (h : c.isDigit = true) : benignChar c = true := by
  rw [benignChar, Char.isAlphanum, h]
  simp

lemma identChar_benign {c : Char} (h : (c.isAlphanum || c = '_') = true) :
    benignChar c = true := by
  rw [benignChar]
  rcases Bool.or_eq_true_iff.mp h with h | h <;> simp [h]

lemma identChar_not_space {c : Char} (h : (c.isAlphanum || c = '_') = true) :
    isPySpace c = false := by
  by_contra hs
  rw [Bool.not_eq_false, isPySpace] at hs
  rcases Bool.or_eq_true_iff.mp hs with hs | hs
  · rcases Bool.or_eq_true_iff.mp hs with hs | hs
    · rcases Bool.or_eq_true_iff.mp hs with hs | hs <;>
        [skip; skip] <;> rw [decide_eq_true_iff] at hs <;> subst hs <;>
        revert h <;> decide
    · rw [decide_eq_true_iff] at hs; subst hs; revert h; decide
  · rw [decide_eq_true_iff] at hs; subst hs; revert h; decide

lemma benign_not_lf {c : Char} (h : benignChar c = true) : c ≠ '\n' := by
  intro hc
  subst hc
  revert h
  decide

lemma benign_not_lt {c : Char} (h : benignChar c = true) : c ≠ '<' := by
  intro hc
  subst hc
  revert h
  decide

lemma floatChar_benign {c : Char} (h : isFloatChar c = true) : benignChar c = true := by
  rw [isFloatChar] at h
  rcases Bool.or_eq_true_iff.mp h with h | h
  · rcases Bool.or_eq_true_iff.mp h with h | h
    · exact digit_benign h
    · rw [decide_eq_true_iff] at h; subst h; decide
  · rw [decide_eq_true_iff] at h; subst h; decide

lemma format_2f_floatChars (v : ℚ) : ∀ c ∈ format_2f v, isFloatChar c = true := by
  intro c hc
  rw [format_2f] at hc
  rcases List.mem_append.mp hc with h12 | h3
  · rcases List.mem_append.mp h12 with h1 | h2
    · by_cases hn : (⌊v * 100 + 1/2⌋ : ℤ) < 0
      · rw [if_pos hn] at h1
        rcases List.mem_cons.mp h1 with rfl | h
        · decide
        · exact absurd h (List.not_mem_nil c)
      · rw [if_neg hn] at h1
        exact absurd h1 (List.not_mem_nil c)
    · rw [isFloatChar, natToChars_isDigit _ c h2]
      simp
  · rcases List.mem_cons.mp h3 with rfl | h3
    · decide
    · rcases List.mem_cons.mp h3 with rfl | h3
      · rw [isFloatChar, digitChar_isDigit _ (by omega)]
        simp
      · rcases List.mem_cons.mp h3 with rfl | h3
        · rw [isFloatChar, digitChar_isDigit _ (Nat.mod_lt _ (by norm_num))]
          simp
        · exact absurd h3 (List.not_mem_nil c)

lemma marker_row_cons (k : Str) (v : ℚ) :
    marker_row k v = '|' :: (' ' :: ((k ++ chars " | ") ++ format_2f v ++ chars " |")) := by
  simp [marker_row, chars]

lemma marker_row_getLast? (k : Str) (v : ℚ) :
    (marker_row k v).getLast? = some '|' := by
  rw [marker_row]
  exact getLast?_append_of_eq (by rfl) _

lemma marker_row_benign (k : Str) (hk : ∀ c ∈ k, (c.isAlphanum || c = '_') = true)
    (v : ℚ) : ∀ c ∈ marker_row k v, benignChar c = true := by
  intro c hc
  rw [marker_row] at hc
  rcases List.mem_append.mp hc with h | h
  swap
  · simp [chars] at h
    rcases h with rfl | rfl <;> decide
  rcases List.mem_append.mp h with h | h
  swap
  · exact floatChar_benign (format_2f_floatChars v c h)
  rcases List.mem_append.mp h with h | h
  swap
  · simp [chars] at h
    rcases h with rfl | rfl | rfl <;> decide
  rcases List.mem_append.mp h with h | h
  · simp [chars] at h
    rcases h with rfl | rfl <;> decide
  · exact identChar_benign (hk c h)

lemma pyJoin_chars (sep : Str) :
    ∀ (ls : List Str) (c : Char), c ∈ pyJoin sep ls → c ∈ sep ∨ ∃ l ∈ ls, c ∈ l := by
  intro ls
  induction ls with
  | nil => intro c hc; exact absurd hc (List.not_mem_nil c)
  | cons l rest ih =>
    intro c hc
    cases rest with
    | nil => exact Or.inr ⟨l, List.mem_cons_self _ _, hc⟩
    | cons l2 rest2 =>
      rw [pyJoin] at hc
      rcases List.mem_append.mp hc with h | h
      · rcases List.mem_append.mp h with h | h
        · exact Or.inr ⟨l, List.mem_cons_self _ _, h⟩
        · exact Or.inl h
      · rcases ih c h with h | ⟨l', hl', hc'⟩
        · exact Or.inl h
        · exact Or.inr ⟨l', List.mem_cons_of_mem _ hl', hc'⟩

lemma pyJoin_head_cons (sep : Str) (d : Char) (xt : Str) :
    ∀ ls : List Str, ∃ t, pyJoin sep ((d :: xt) :: ls) = d :: t := by
  intro ls
  cases ls with
  | nil => exact ⟨xt, rfl⟩
  | cons l2 rest2 => exact ⟨(xt ++ sep) ++ pyJoin sep (l2 :: rest2), by rw [pyJoin]; simp⟩

lemma pyJoin_getLast_bar (sep : Str) :
    ∀ ls : List Str, ls ≠ [] → (∀ l ∈ ls, l.getLast? = some '|') →
      (pyJoin sep ls).getLast? = some '|' := by
  intro ls
  induction ls with
  | nil => intro h; exact absurd rfl h
  | cons l rest ih =>
    intro _ hall
    cases rest with
    | nil => exact hall l (List.mem_cons_self _ _)
    | cons l2 rest2 =>
      rw [pyJoin]
      have hin := ih (List.cons_ne_nil _ _)
        (fun x hx => hall x (List.mem_cons_of_mem _ hx))
      have hne : pyJoin sep (l2 :: rest2) ≠ [] := by
        intro h
        rw [h] at hin
        cases hin
      exact getLast?_append_of_eq hin _

lemma split_pyJoin :
    ∀ ls : List Str, ls ≠ [] → (∀ l ∈ ls, ∀ c ∈ l, c ≠ '\n') →
      splitOnChar '\n' (pyJoin ['\n'] ls) = ls := by
  intro ls
  induction ls with
  | nil => intro h; exact absurd rfl h
  | cons l rest ih =>
    intro _ hall
    cases rest with
    | nil => exact splitOnChar_no_sep '\n' l (hall l (List.mem_cons_self _ _))
    | cons l2 rest2 =>
      rw [pyJoin, show (l ++ ['\n']) ++ pyJoin ['\n'] (l2 :: rest2) =
        l ++ '\n' :: pyJoin ['\n'] (l2 :: rest2) from by simp,
        splitOnChar_append '\n' l _ (hall l (List.mem_cons_self _ _)),
        ih (List.cons_ne_nil _ _) (fun x hx => hall x (List.mem_cons_of_mem _ hx))]

lemma natToChars_ne_nil (n : ℕ) : natToChars n ≠ [] := by
  have haux : natToCharsAux n ≠ [] := by
    rw [natToCharsAux]
    split <;> simp
  rw [natToChars]
  intro h
  rw [List.reverse_eq_nil_iff] at h
  exact haux h

lemma parse_two_digits (a : ℕ) :
    parseNatChars [Nat.digitChar (a % 100 / 10), Nat.digitChar (a % 10)] = a % 100 := by
  have h1 : a % 100 / 10 < 10 := by omega
  have h2 : a % 10 < 10 := Nat.mod_lt _ (by norm_num)
  simp only [parseNatChars, List.foldl, charVal_digitChar _ h1, charVal_digitChar _ h2]
  omega

lemma pyFloatCore_format (a : ℕ) :
    pyFloatCore (natToChars (a / 100) ++
      '.' :: [Nat.digitChar (a % 100 / 10), Nat.digitChar (a % 10)]) =
      some ((a : ℚ) / 100) := by
  have hdig := natToChars_isDigit (a / 100)
  have h1 : a % 100 / 10 < 10 := by omega
  have h2 : a % 10 < 10 := Nat.mod_lt _ (by norm_num)
  have hnodash : (natToChars (a / 100) ++
      '.' :: [Nat.digitChar (a % 100 / 10), Nat.digitChar (a % 10)]).any (· = '-') = false := by
    rw [List.any_eq_false]
    intro c hc
    have hne : c ≠ '-' := by
      rcases List.mem_append.mp hc with h | h
      · intro he
        have := hdig c h
        rw [he] at this
        cases this
      · rcases List.mem_cons.mp h with rfl | h
        · exact fun he => absurd he (by decide)
        · rcases List.mem_cons.mp h with rfl | h
          · intro he
            have := digitChar_isDigit _ h1
            rw [he] at this
            cases this
          · rcases List.mem_cons.mp h with rfl | h
            · intro he
              have := digitChar_isDigit _ h2
              rw [he] at this
              cases this
            · exact absurd h (List.not_mem_nil c)
    simp [hne]
  have hsplit : splitOnChar '.' (natToChars (a / 100) ++
      '.' :: [Nat.digitChar (a % 100 / 10), Nat.digitChar (a % 10)]) =
      [natToChars (a / 100), [Nat.digitChar (a % 100 / 10), Nat.digitChar (a % 10)]] := by
    rw [splitOnChar_append '.' _ _ ?hnd, splitOnChar_no_sep '.' _ ?hnd2]
    case hnd =>
      intro c hc he
      have := hdig c hc
      rw [he] at this
      cases this
    case hnd2 =>
      intro c hc he
      rcases List.mem_cons.mp hc with rfl | hc
      · have := digitChar_isDigit _ h1
        rw [he] at this
        cases this
      · rcases List.mem_cons.mp hc with rfl | hc
        · have := digitChar_isDigit _ h2
          rw [he] at this
          cases this
        · exact absurd hc (List.not_mem_nil c)
  rw [pyFloatCore, if_neg (by rw [hnodash]; exact Bool.false_ne_true), hsplit]
  show (if natToChars (a / 100) ++ [Nat.digitChar (a % 100 / 10), Nat.digitChar (a % 10)] ≠ [] ∧
      List.all (natToChars (a / 100)) Char.isDigit = true ∧
      List.all [Nat.digitChar (a % 100 / 10), Nat.digitChar (a % 10)] Char.isDigit = true then
      some ((parseNatChars (natToChars (a / 100)) : ℚ) +
        (parseNatChars [Nat.digitChar (a % 100 / 10), Nat.digitChar (a % 10)] : ℚ) /
          10 ^ List.length [Nat.digitChar (a % 100 / 10), Nat.digitChar (a % 10)])
    else none) = some ((a : ℚ) / 100)
  rw [if_pos ?hcond]
  case hcond =>
    refine ⟨?_, ?_, ?_⟩
    · intro h
      exact natToChars_ne_nil (a / 100) (List.append_eq_nil.mp h).1
    · rw [List.all_eq_true]
      exact hdig
    · rw [List.all_eq_true]
      intro c hc
      rcases List.mem_cons.mp hc with rfl | hc
      · exact digitChar_isDigit _ h1
      · rcases List.mem_cons.mp hc with rfl | hc
        · exact digitChar_isDigit _ h2
        · exact absurd hc (List.not_mem_nil c)
  rw [parseNat_natToChars, parse_two_digits]
  have hmod : (a : ℚ) = 100 * ((a / 100 : ℕ) : ℚ) + ((a % 100 : ℕ) : ℚ) := by
    exact_mod_cast (Nat.div_add_mod a 100).symm
  rw [show ([Nat.digitChar (a % 100 / 10), Nat.digitChar (a % 10)]).length = 2 from rfl]
  congr 1
  rw [hmod]
  field_simp
  ring

lemma pyFloat_cons_ne_dash (h : Char) (hne : h ≠ '-') (t : Str) :
    pyFloat (h :: t) = pyFloatCore (h :: t) := by
  rw [pyFloat.eq_def]
  split
  · rename_i rest heq
    injection heq with h1 _
    exact absurd h1 hne
  · rfl

lemma pyFloat_format_2f (v : ℚ) : pyFloat (format_2f v) = some (round2 v) := by
  rw [format_2f, round2]
  by_cases hn : (⌊v * 100 + 1/2⌋ : ℤ) < 0
  · rw [if_pos hn, show ((['-'] ++ natToChars (⌊v * 100 + 1/2⌋.natAbs / 100)) ++
        '.' :: [Nat.digitChar (⌊v * 100 + 1/2⌋.natAbs % 100 / 10),
          Nat.digitChar (⌊v * 100 + 1/2⌋.natAbs % 10)]) =
      '-' :: (natToChars (⌊v * 100 + 1/2⌋.natAbs / 100) ++
        '.' :: [Nat.digitChar (⌊v * 100 + 1/2⌋.natAbs % 100 / 10),
          Nat.digitChar (⌊v * 100 + 1/2⌋.natAbs % 10)]) from by simp]
    show (pyFloatCore (natToChars (⌊v * 100 + 1/2⌋.natAbs / 100) ++
        '.' :: [Nat.digitChar (⌊v * 100 + 1/2⌋.natAbs % 100 / 10),
          Nat.digitChar (⌊v * 100 + 1/2⌋.natAbs % 10)])).map Neg.neg = _
    rw [pyFloatCore_format, Option.map_some']
    have ha : ((⌊v * 100 + 1/2⌋.natAbs : ℕ) : ℚ) = -((⌊v * 100 + 1/2⌋ : ℤ) : ℚ) := by
      rw [Int.cast_natAbs, Int.cast_abs]
      exact abs_of_neg (by exact_mod_cast hn)
    rw [ha]
    congr 1
    ring
  · rw [if_neg hn, List.nil_append]
    obtain ⟨h, t, hnc⟩ : ∃ h t, natToChars (⌊v * 100 + 1/2⌋.natAbs / 100) = h :: t := by
      cases hx : natToChars (⌊v * 100 + 1/2⌋.natAbs / 100) with
      | nil => exact absurd hx (natToChars_ne_nil _)
      | cons h t => exact ⟨h, t, rfl⟩
    have hh : h.isDigit = true :=
      natToChars_isDigit _ h (by rw [hnc]; exact List.mem_cons_self _ _)
    have hhd : h ≠ '-' := by
      intro he
      rw [he] at hh
      cases hh
    rw [hnc, List.cons_append, pyFloat_cons_ne_dash h hhd _, ← List.cons_append,
      ← hnc, pyFloatCore_format]
    have ha : ((⌊v * 100 + 1/2⌋.natAbs : ℕ) : ℚ) = ((⌊v * 100 + 1/2⌋ : ℤ) : ℚ) := by
      rw [Int.cast_natAbs, Int.cast_abs]
      exact abs_of_nonneg (by exact_mod_cast not_lt.mp hn)
    rw [ha]

lemma isPrefixOf_cons_cons (a b : Char) (as bs : Str) :
    (a :: as).isPrefixOf (b :: bs) = (a == b && as.isPrefixOf bs) := rfl

lemma isPrefixOf_append_sep (c : Char) :
    ∀ (k p : Str), c ∉ p → p.isPrefixOf k = false → ∀ r,
      p.isPrefixOf (k ++ c :: r) = false := by
  intro k
  induction k with
  | nil =>
    intro p hc hf r
    cases p with
    | nil => cases hf
    | cons a p' =>
      rw [List.nil_append, isPrefixOf_cons_cons]
      have : a ≠ c := fun h => hc (h ▸ List.mem_cons_self a p')
      rw [beq_eq_false_iff_ne.mpr this, Bool.false_and]
  | cons d k' ih =>
    intro p hc hf r
    cases p with
    | nil => cases hf
    | cons a p' =>
      rw [List.cons_append, isPrefixOf_cons_cons]
      rw [isPrefixOf_cons_cons] at hf
      by_cases had : (a == d) = true
      · rw [had, Bool.true_and] at hf
        rw [had, Bool.true_and]
        exact ih p' (fun h => hc (List.mem_cons_of_mem _ h)) hf r
      · rw [Bool.not_eq_true] at had
        rw [had, Bool.false_and]

lemma format_2f_ne_nil (v : ℚ) : format_2f v ≠ [] := by
  rw [format_2f]
  intro h
  have h2 := (List.append_eq_nil.mp h).2
  cases h2

lemma format_2f_head_not_space (v : ℚ) :
    ∃ d t, format_2f v = d :: t ∧ isPySpace d = false := by
  obtain ⟨d, t, hdt⟩ : ∃ d t, format_2f v = d :: t := by
    cases hx : format_2f v with
    | nil => exact absurd hx (format_2f_ne_nil v)
    | cons d t => exact ⟨d, t, rfl⟩
  refine ⟨d, t, hdt, ?_⟩
  have hd : d ∈ format_2f v := by rw [hdt]; exact List.mem_cons_self _ _
  have := format_2f_floatChars v d hd
  rw [isFloatChar] at this
  rcases Bool.or_eq_true_iff.mp this with h | h
  · rcases Bool.or_eq_true_iff.mp h with h | h
    · by_contra hs
      rw [Bool.not_eq_false, isPySpace] at hs
      rcases Bool.or_eq_true_iff.mp hs with hs | hs
      · rcases Bool.or_eq_true_iff.mp hs with hs | hs
        · rcases Bool.or_eq_true_iff.mp hs with hs | hs <;>
            rw [decide_eq_true_iff] at hs <;> rw [hs] at h <;> cases h
        · rw [decide_eq_true_iff] at hs; rw [hs] at h; cases h
      · rw [decide_eq_true_iff] at hs; rw [hs] at h; cases h
    · rw [decide_eq_true_iff] at h; rw [h]; rfl
  · rw [decide_eq_true_iff] at h; rw [h]; rfl

lemma format_2f_getLast_not_space (v : ℚ) :
    ∃ e, (format_2f v).getLast? = some e ∧ isPySpace e = false := by
  refine ⟨Nat.digitChar (⌊v * 100 + 1/2⌋.natAbs % 10), ?_, ?_⟩
  · rw [format_2f]
    exact getLast?_append_of_eq (by rfl) _
  · have hd := digitChar_isDigit (⌊v * 100 + 1/2⌋.natAbs % 10) (Nat.mod_lt _ (by norm_num))
    by_contra hs
    rw [Bool.not_eq_false, isPySpace] at hs
    rcases Bool.or_eq_true_iff.mp hs with hs | hs
    · rcases Bool.or_eq_true_iff.mp hs with hs | hs
      · rcases Bool.or_eq_true_iff.mp hs with hs | hs <;>
          rw [decide_eq_true_iff] at hs <;> rw [hs] at hd <;> cases hd
      · rw [decide_eq_true_iff] at hs; rw [hs] at hd; cases hd
    · rw [decide_eq_true_iff] at hs; rw [hs] at hd; cases hd

lemma process_line_header (acc : List (Str × ℚ)) : process_line acc tm_header = acc := rfl

lemma process_line_sep (acc : List (Str × ℚ)) : process_line acc tm_sep = acc := rfl

lemma process_line_row (acc : List (Str × ℚ)) (k : Str) (v : ℚ)
    (hne : k ≠ []) (hall : ∀ c ∈ k, (c.isAlphanum || c = '_') = true)
    (hpre : (chars "Marker").isPrefixOf k = false) :
    process_line acc (marker_row k v) = dictInsert acc k (round2 v) := by
  obtain ⟨kh, kt, hk⟩ : ∃ kh kt, k = kh :: kt := by
    cases k with
    | nil => exact absurd rfl hne
    | cons kh kt => exact ⟨kh, kt, rfl⟩
  have hkh_space : isPySpace kh = false :=
    identChar_not_space (hall kh (by rw [hk]; exact List.mem_cons_self _ _))
  have hke : k.getLast? = some (k.getLast hne) := List.getLast?_eq_getLast k hne
  have hkes : isPySpace (k.getLast hne) = false :=
    identChar_not_space (hall _ (List.getLast_mem hne))
  obtain ⟨fd, ft, hf, hfs⟩ := format_2f_head_not_space v
  obtain ⟨fe, hfe, hfes⟩ := format_2f_getLast_not_space v
  have hstrip : pyStrip (marker_row k v) = marker_row k v :=
    pyStrip_eq_self _ '|' _ (marker_row_cons k v) (by decide) '|'
      (marker_row_getLast? k v) (by decide)
  have hknb : ∀ c ∈ k, c ≠ '|' := by
    intro c hc he
    have := hall c hc
    rw [he] at this
    exact absurd this (by decide)
  have hfnb : ∀ c ∈ format_2f v, c ≠ '|' := by
    intro c hc he
    have := format_2f_floatChars v c hc
    rw [he] at this
    exact absurd this (by decide)
  have hsplit : splitOnChar '|' (marker_row k v) =
      [[], ' ' :: (k ++ [' ']), ' ' :: (format_2f v ++ [' ']), []] := by
    rw [marker_row_cons]
    show splitOnChar '|'
      (([] : Str) ++ '|' :: (' ' :: ((k ++ chars " | ") ++ format_2f v ++ chars " |"))) = _
    rw [splitOnChar_append '|' [] _ (fun c hc => absurd hc (List.not_mem_nil c))]
    have hsh : ' ' :: ((k ++ chars " | ") ++ format_2f v ++ chars " |") =
        (' ' :: (k ++ [' '])) ++ '|' ::
          ((' ' :: (format_2f v ++ [' '])) ++ '|' :: []) := by
      simp [chars]
    rw [hsh, splitOnChar_append '|' _ _ ?hp1, splitOnChar_append '|' _ _ ?hp2]
    case hp1 =>
      intro c hc
      rcases List.mem_cons.mp hc with rfl | hc
      · decide
      · rcases List.mem_append.mp hc with hc | hc
        · exact hknb c hc
        · simp at hc
          rw [hc]
          decide
    case hp2 =>
      intro c hc
      rcases List.mem_cons.mp hc with rfl | hc
      · decide
      · rcases List.mem_append.mp hc with hc | hc
        · exact hfnb c hc
        · simp at hc
          rw [hc]
          decide
    rfl
  have hmap : ([[], ' ' :: (k ++ [' ']), ' ' :: (format_2f v ++ [' ']),
      ([] : Str)]).map pyStrip = [[], k, format_2f v, []] := by
    simp only [List.map]
    rw [show ' ' :: (k ++ [' ']) = (' ' :: k) ++ [' '] from (List.cons_append _ _ _).symm,
      show ' ' :: (format_2f v ++ [' ']) = (' ' :: format_2f v) ++ [' '] from
        (List.cons_append _ _ _).symm,
      pyStrip_sandwich k ' ' ' ' (by decide) (by decide) kh kt hk hkh_space _ hke hkes,
      pyStrip_sandwich (format_2f v) ' ' ' ' (by decide) (by decide) fd ft hf hfs fe hfe hfes]
    rfl
  have hfilter : (([[], k, format_2f v, ([] : Str)]).filter (· ≠ [])) =
      [k, format_2f v] := by
    simp [List.filter_cons, hne, format_2f_ne_nil v]
  have hp2 : (chars "|--").isPrefixOf (marker_row k v) = false := by
    rw [marker_row_cons]
    show (('|' :: '-' :: ['-']).isPrefixOf ('|' :: (' ' :: _))) = false
    rw [isPrefixOf_cons_cons, isPrefixOf_cons_cons,
      show (('-' : Char) == ' ') = false from rfl]
    simp
  have hp3 : (chars "| Marker").isPrefixOf (marker_row k v) = false := by
    rw [marker_row_cons]
    show (('|' :: ' ' :: chars "Marker").isPrefixOf
      ('|' :: (' ' :: ((k ++ chars " | ") ++ format_2f v ++ chars " |")))) = false
    rw [isPrefixOf_cons_cons, isPrefixOf_cons_cons]
    simp only [beq_self_eq_true, Bool.true_and]
    have hsh2 : (k ++ chars " | ") ++ format_2f v ++ chars " |" =
        k ++ ' ' :: ('|' :: ' ' :: (format_2f v ++ [' ', '|'])) := by
      simp [chars]
    rw [hsh2]
    exact isPrefixOf_append_sep ' ' k (chars "Marker") (by decide) hpre _
  have hp4 : (marker_row k v).any (· = '|') = true := by
    rw [marker_row_cons]
    simp
  have hrne : marker_row k v ≠ [] := by
    rw [marker_row_cons]
    exact List.cons_ne_nil _ _
  simp only [process_line, hstrip]
  rw [if_neg hrne, if_neg (by rw [hp2]; exact Bool.false_ne_true),
    if_neg (by rw [hp3]; exact Bool.false_ne_true),
    if_neg (not_not_intro hp4), hsplit, hmap, hfilter]
  show (match pyFloat (List.filter isFloatChar (format_2f v)) with
    | some x => dictInsert acc k x
    | none => acc) = dictInsert acc k (round2 v)
  rw [List.filter_eq_self.mpr (format_2f_floatChars v), pyFloat_format_2f]

lemma lookup_append (k : Str) :
    ∀ l1 l2 : List (Str × ℚ), List.lookup k (l1 ++ l2) =
      (List.lookup k l1).orElse (fun _ => List.lookup k l2) := by
  intro l1
  induction l1 with
  | nil => intro l2; rfl
  | cons kv t ih =>
    intro l2
    obtain ⟨k1, v1⟩ := kv
    rw [List.cons_append, List.lookup, List.lookup]
    by_cases h : (k == k1) = true
    · rw [h]
      rfl
    · rw [Bool.not_eq_true] at h
      rw [h, ih l2]

lemma lookup_singleton_ne (k k1 : Str) (v1 : ℚ) (h : k ≠ k1) :
    List.lookup k [(k1, v1)] = none := by
  rw [List.lookup, beq_eq_false_iff_ne.mpr h]
  rfl

lemma dict_fold_lookup :
    ∀ (ents acc : List (Str × ℚ)),
      (∀ kv ∈ ents, List.lookup kv.1 acc = none) → (ents.map Prod.fst).Nodup →
      ∀ k, List.lookup k
          (ents.foldl (fun acc kv => dictInsert acc kv.1 (round2 kv.2)) acc) =
        match List.lookup k acc with
        | some w => some w
        | none => (List.lookup k ents).map round2 := by
  intro ents
  induction ents with
  | nil =>
    intro acc _ _ k
    cases h : List.lookup k acc with
    | some w => rw [List.foldl_nil, h]
    | none =>
      rw [List.foldl_nil, h]
      rfl
  | cons kv rest ih =>
    intro acc hnone hnd k
    obtain ⟨k1, v1⟩ := kv
    have hk1 : List.lookup k1 acc = none := hnone (k1, v1) (List.mem_cons_self _ _)
    have hins : dictInsert acc k1 (round2 v1) = acc ++ [(k1, round2 v1)] := by
      rw [dictInsert, if_neg (by rw [hk1]; exact Bool.false_ne_true)]
    have hk1notin : k1 ∉ rest.map Prod.fst := (List.nodup_cons.mp hnd).1
    have hrest_none : ∀ kv' ∈ rest, List.lookup kv'.1 (acc ++ [(k1, round2 v1)]) = none := by
      intro kv' hkv'
      have hne : kv'.1 ≠ k1 := by
        intro he
        exact hk1notin (he ▸ List.mem_map_of_mem Prod.fst hkv')
      rw [lookup_append, hnone kv' (List.mem_cons_of_mem _ hkv')]
      show List.lookup kv'.1 [(k1, round2 v1)] = none
      exact lookup_singleton_ne _ _ _ hne
    rw [List.foldl_cons]
    show List.lookup k ((rest.foldl (fun acc kv => dictInsert acc kv.1 (round2 kv.2))
      (dictInsert acc k1 (round2 v1)))) = _
    rw [hins, ih (acc ++ [(k1, round2 v1)]) hrest_none (List.nodup_cons.mp hnd).2 k]
    by_cases hkk : k = k1
    · subst hkk
      rw [lookup_append, hk1]
      show (match List.lookup k [(k, round2 v1)] with
        | some w => some w
        | none => Option.map round2 (List.lookup k rest)) = _
      rw [show List.lookup k [(k, round2 v1)] = some (round2 v1) from by
        simp [List.lookup]]
      show some (round2 v1) = _
      rw [show List.lookup k ((k, v1) :: rest) = some v1 from by
        simp [List.lookup]]
      rfl
    · rw [lookup_append, lookup_singleton_ne _ _ _ hkk]
      have hlk : List.lookup k ((k1, v1) :: rest) = List.lookup k rest := by
        rw [List.lookup, beq_eq_false_iff_ne.mpr hkk]
      rw [hlk]
      cases List.lookup k acc <;> rfl

lemma lookup_some_mem (k : Str) (v : ℚ) :
    ∀ l : List (Str × ℚ), List.lookup k l = some v → (k, v) ∈ l := by
  intro l
  induction l with
  | nil => intro h; cases h
  | cons kv t ih =>
    intro h
    obtain ⟨k1, v1⟩ := kv
    rw [List.lookup] at h
    by_cases hb : (k == k1) = true
    · rw [hb] at h
      have hk : k = k1 := beq_iff_eq.mp hb
      have hv : v1 = v := Option.some.inj h
      rw [← hk, hv] at *
      exact List.mem_cons_self _ _
    · rw [Bool.not_eq_true] at hb
      rw [hb] at h
      exact List.mem_cons_of_mem _ (ih h)

lemma lookup_mem_of_nodup (k : Str) (v : ℚ) :
    ∀ l : List (Str × ℚ), (l.map Prod.fst).Nodup → (k, v) ∈ l →
      List.lookup k l = some v := by
  intro l
  induction l with
  | nil => intro _ h; cases h
  | cons kv t ih =>
    intro hnd hm
    obtain ⟨k1, v1⟩ := kv
    rcases List.mem_cons.mp hm with heq | hmt
    · injection heq with h1 h2
      subst h1
      subst h2
      rw [List.lookup, beq_self_eq_true]
    · have hne : k ≠ k1 := by
        intro he
        subst he
        exact (List.nodup_cons.mp hnd).1 (List.mem_map.mpr ⟨(k, v), hmt, rfl⟩)
      rw [List.lookup, beq_eq_false_iff_ne.mpr hne]
      exact ih (List.nodup_cons.mp hnd).2 hmt

lemma lookup_none_of_not_mem_keys (k : Str) :
    ∀ l : List (Str × ℚ), k ∉ l.map Prod.fst → List.lookup k l = none := by
  intro l
  induction l with
  | nil => intro _; rfl
  | cons kv t ih =>
    intro h
    obtain ⟨k1, v1⟩ := kv
    have hne : k ≠ k1 := fun he => h (by rw [he]; exact List.mem_cons_self _ _)
    rw [List.lookup, beq_eq_false_iff_ne.mpr hne]
    exact ih (fun hm => h (List.mem_cons_of_mem _ hm))

lemma lookup_perm {l l' : List (Str × ℚ)} (hp : l.Perm l')
    (hnd : (l.map Prod.fst).Nodup) (k : Str) :
    List.lookup k l = List.lookup k l' := by
  cases hl' : List.lookup k l' with
  | some v =>
    exact lookup_mem_of_nodup k v l hnd (hp.symm.subset (lookup_some_mem k v l' hl'))
  | none =>
    refine lookup_none_of_not_mem_keys k l (fun hm => ?_)
    obtain ⟨⟨k2, v2⟩, hmem, hfst⟩ := List.mem_map.mp hm
    dsimp at hfst
    subst hfst
    have hnd' : (l'.map Prod.fst).Nodup := ((hp.map Prod.fst).nodup_iff).mp hnd
    have h2 := lookup_mem_of_nodup k2 v2 l' hnd' (hp.subset hmem)
    rw [hl'] at h2
    exact Option.noConfusion h2

lemma goodMarkerName_spec {k : Str} (h : goodMarkerName k = true) :
    k ≠ [] ∧ (∀ c ∈ k, (c.isAlphanum || c = '_') = true) ∧
      k.head? ≠ some '_' ∧ (chars "Marker").isPrefixOf k = false := by
  rw [goodMarkerName, Bool.and_eq_true, Bool.and_eq_true, Bool.and_eq_true] at h
  obtain ⟨⟨⟨h1, h2⟩, h3⟩, h4⟩ := h
  refine ⟨?_, ?_, ?_, ?_⟩
  · cases k with
    | nil => exact absurd h1 (by decide)
    | cons a t => exact List.cons_ne_nil a t
  · exact fun c hc => List.all_eq_true.mp h2 c hc
  · intro he
    rw [he] at h3
    exact absurd h3 (by decide)
  · cases hb : (chars "Marker").isPrefixOf k with
    | false => rfl
    | true =>
      rw [hb] at h4
      exact absurd h4 (by decide)

lemma filterMap_good_rows :
    ∀ ents : List (Str × ℚ), (∀ kv ∈ ents, kv.1.head? ≠ some '_') →
      (ents.filterMap (fun kv =>
        if (true : Bool) = true ∧ kv.1.head? = some '_' then none
        else some (marker_row kv.1 kv.2))) =
      ents.map (fun kv => marker_row kv.1 kv.2) := by
  intro ents
  induction ents with
  | nil => intro _; rfl
  | cons kv rest ih =>
    intro h
    have hkv : (if (true : Bool) = true ∧ kv.1.head? = some '_' then none
        else some (marker_row kv.1 kv.2)) = some (marker_row kv.1 kv.2) :=
      if_neg (fun hc => h kv (List.mem_cons_self _ _) hc.2)
    rw [List.filterMap_cons, hkv, ih (fun x hx => h x (List.mem_cons_of_mem _ hx)),
      List.map_cons]

lemma markers_to_md_block_rows (m : List (Str × ℚ))
    (h : ∀ kv ∈ m, kv.1.head? ≠ some '_') :
    markers_to_md_block m = pyJoin ['\n'] ([tm_start, tm_header, tm_sep] ++
      (List.insertionSort byMarkerTime m).map (fun kv => marker_row kv.1 kv.2) ++
      [tm_end]) := by
  rw [markers_to_md_block, filterMap_good_rows (List.insertionSort byMarkerTime m)
    (fun kv hkv => h kv ((List.perm_insertionSort byMarkerTime m).subset hkv))]

lemma pyJoin_cons_ne (sep a : Str) : ∀ l2 : List Str, l2 ≠ [] →
    pyJoin sep (a :: l2) = a ++ sep ++ pyJoin sep l2 := by
  intro l2 h
  cases l2 with
  | nil => exact absurd rfl h
  | cons b t => rfl

lemma foldl_process_rows :
    ∀ (ents acc : List (Str × ℚ)),
      (∀ kv ∈ ents, goodMarkerName kv.1 = true) →
      (ents.map (fun kv => marker_row kv.1 kv.2)).foldl process_line acc =
        ents.foldl (fun acc kv => dictInsert acc kv.1 (round2 kv.2)) acc := by
  intro ents
  induction ents with
  | nil => intro acc _; rfl
  | cons kv rest ih =>
    intro acc h
    obtain ⟨h1, h2, _, h4⟩ := goodMarkerName_spec (h kv (List.mem_cons_self _ _))
    rw [List.map_cons, List.foldl_cons, List.foldl_cons,
      process_line_row acc kv.1 kv.2 h1 h2 h4,
      ih _ (fun x hx => h x (List.mem_cons_of_mem _ hx))]

lemma parse_of_good_rows (ents : List (Str × ℚ))
    (hgood : ∀ kv ∈ ents, goodMarkerName kv.1 = true) :
    parse_timeline_markers_from_md (pyJoin ['\n']
        ([tm_start, tm_header, tm_sep] ++
          ents.map (fun kv => marker_row kv.1 kv.2) ++ [tm_end])) =
      ents.foldl (fun acc kv => dictInsert acc kv.1 (round2 kv.2)) [] := by
  have hident : ∀ kv ∈ ents, ∀ c ∈ kv.1, (c.isAlphanum || c = '_') = true :=
    fun kv hkv => (goodMarkerName_spec (hgood kv hkv)).2.1
  have hrow_benign : ∀ l ∈ ents.map (fun kv => marker_row kv.1 kv.2),
      ∀ c ∈ l, benignChar c = true := by
    intro l hl
    obtain ⟨kv, hkv, rfl⟩ := List.mem_map.mp hl
    exact marker_row_benign kv.1 (hident kv hkv) kv.2
  have hmidlines : ∀ l ∈ tm_header :: tm_sep :: ents.map (fun kv => marker_row kv.1 kv.2),
      ∀ c ∈ l, c ≠ '\n' := by
    intro l hl
    rcases List.mem_cons.mp hl with rfl | hl
    · decide
    rcases List.mem_cons.mp hl with rfl | hl
    · decide
    · exact fun c hc => benign_not_lf (hrow_benign l hl c hc)
  have hnolt : '<' ∉ pyJoin ['\n']
      (tm_header :: tm_sep :: ents.map (fun kv => marker_row kv.1 kv.2)) := by
    intro hc
    rcases pyJoin_chars ['\n'] _ '<' hc with h | ⟨l, hl, hcl⟩
    · simp at h
    · rcases List.mem_cons.mp hl with rfl | hl
      · revert hcl; decide
      rcases List.mem_cons.mp hl with rfl | hl
      · revert hcl; decide
      · exact benign_not_lt (hrow_benign l hl '<' hcl) rfl
  obtain ⟨bt, hbt⟩ := pyJoin_head_cons ['\n'] '|' (chars " Marker | Time (s) |")
    (tm_sep :: ents.map (fun kv => marker_row kv.1 kv.2))
  have hhead : pyJoin ['\n']
      (tm_header :: tm_sep :: ents.map (fun kv => marker_row kv.1 kv.2)) = '|' :: bt := by
    rw [show tm_header = '|' :: chars " Marker | Time (s) |" from rfl]
    exact hbt
  have hlast : (pyJoin ['\n']
      (tm_header :: tm_sep :: ents.map (fun kv => marker_row kv.1 kv.2))).getLast? =
      some '|' := by
    refine pyJoin_getLast_bar ['\n'] _ (List.cons_ne_nil _ _) ?_
    intro l hl
    rcases List.mem_cons.mp hl with rfl | hl
    · decide
    rcases List.mem_cons.mp hl with rfl | hl
    · decide
    · obtain ⟨kv, hkv, rfl⟩ := List.mem_map.mp hl
      exact marker_row_getLast? kv.1 kv.2
  have hl1 : [tm_start, tm_header, tm_sep] ++
      ents.map (fun kv => marker_row kv.1 kv.2) ++ [tm_end] =
      tm_start :: ((tm_header :: tm_sep :: ents.map (fun kv => marker_row kv.1 kv.2)) ++
        [tm_end]) := by
    simp
  have hjoin : pyJoin ['\n'] ([tm_start, tm_header, tm_sep] ++
      ents.map (fun kv => marker_row kv.1 kv.2) ++ [tm_end]) =
      tm_start ++ '\n' ::
        (pyJoin ['\n'] (tm_header :: tm_sep :: ents.map (fun kv => marker_row kv.1 kv.2)) ++
          '\n' :: tm_end) := by
    rw [hl1, pyJoin_cons_ne ['\n'] tm_start _ (by simp),
      pyJoin_append_single ['\n'] tm_end _ (by simp)]
    simp
  rw [hjoin]
  show (match extractBetween tm_start tm_end (tm_start ++ '\n' ::
        (pyJoin ['\n'] (tm_header :: tm_sep ::
            ents.map (fun (kv : Str × ℚ) => marker_row kv.1 kv.2)) ++
          '\n' :: tm_end)) with
    | some inner => splitOnChar '\n' (pyStrip inner)
    | none => splitOnChar '\n' (tm_start ++ '\n' ::
        (pyJoin ['\n'] (tm_header :: tm_sep ::
            ents.map (fun (kv : Str × ℚ) => marker_row kv.1 kv.2)) ++
          '\n' :: tm_end))).foldl process_line [] = _
  rw [extractBetween_exact _ hnolt]
  show (splitOnChar '\n' (pyStrip ('\n' ::
      pyJoin ['\n'] (tm_header :: tm_sep ::
        ents.map (fun (kv : Str × ℚ) => marker_row kv.1 kv.2)) ++
      ['\n']))).foldl process_line [] = _
  rw [pyStrip_sandwich _ '\n' '\n' (by decide) (by decide) '|' bt hhead (by decide)
    '|' hlast (by decide),
    split_pyJoin _ (List.cons_ne_nil _ _) hmidlines,
    List.foldl_cons, List.foldl_cons, process_line_header, process_line_sep]
  exact foldl_process_rows ents [] hgood

/-- C6, counterexample: the map `{"Marker": 0.0}` has a key with no `|`
character that is not underscore-prefixed, yet serializing and re-parsing it
loses the key entirely: the parser skips every line starting `| Marker` as
the table header, so the round-trip yields an empty map. -/
theorem markers_roundtrip_counterexample :
    List.lookup (chars "Marker")
        (parse_timeline_markers_from_md (markers_to_md_block [(chars "Marker", 0)])) =
        none ∧
    List.lookup (chars "Marker") [(chars "Marker", (0 : ℚ))] = some 0 ∧
    '|' ∉ chars "Marker" ∧ (chars "Marker").head? ≠ some '_' := by
  have h0 : natToChars 0 = ['0'] := by
    rw [natToChars, natToCharsAux, dif_pos (by norm_num)]
    rfl
  have hf : format_2f 0 = chars "0.00" := by
    have hn : (⌊(0 : ℚ) * 100 + 1 / 2⌋ : ℤ) = 0 := by norm_num
    show (if (⌊(0 : ℚ) * 100 + 1 / 2⌋ : ℤ) < 0 then ['-'] else ([] : Str)) ++
        natToChars ((⌊(0 : ℚ) * 100 + 1 / 2⌋ : ℤ).natAbs / 100) ++
        '.' :: [Nat.digitChar ((⌊(0 : ℚ) * 100 + 1 / 2⌋ : ℤ).natAbs % 100 / 10),
          Nat.digitChar ((⌊(0 : ℚ) * 100 + 1 / 2⌋ : ℤ).natAbs % 10)] = chars "0.00"
    rw [hn]
    rw [show ((0 : ℤ).natAbs / 100) = 0 from rfl, show ((0 : ℤ).natAbs % 100 / 10) = 0 from rfl,
      show ((0 : ℤ).natAbs % 10) = 0 from rfl, h0]
    rfl
  have hm : markers_to_md_block [(chars "Marker", 0)] =
      pyJoin ['\n'] [tm_start, tm_header, tm_sep,
        chars "| " ++ chars "Marker" ++ chars " | " ++ format_2f 0 ++ chars " |",
        tm_end] := rfl
  refine ⟨?_, by decide, by decide, by decide⟩
  rw [hm, hf]
  decide

/-- C6: serializing a marker map with `markers_to_md_block` and parsing it
back with `_parse_timeline_markers_from_md` yields exactly the same keys,
each mapped to its time rounded to two decimal places (no extra or missing
keys, stated via lookup), provided the keys are distinct identifier-like
names (letters, digits, underscores) that are not underscore-prefixed (those
are filtered as internal) and do not start with `Marker` (such rows are
skipped as the table header). -/
theorem markers_roundtrip (m : List (Str × ℚ))
    (hnd : (m.map Prod.fst).Nodup)
    (hgood : ∀ kv ∈ m, goodMarkerName kv.1 = true) (k : Str) :
    List.lookup k (parse_timeline_markers_from_md (markers_to_md_block m)) =
      (List.lookup k m).map round2 := by
  have hperm : (List.insertionSort byMarkerTime m).Perm m :=
    List.perm_insertionSort byMarkerTime m
  have hgood' : ∀ kv ∈ List.insertionSort byMarkerTime m, goodMarkerName kv.1 = true :=
    fun kv hkv => hgood kv (hperm.subset hkv)
  have hnd' : ((List.insertionSort byMarkerTime m).map Prod.fst).Nodup :=
    ((hperm.map Prod.fst).nodup_iff).mpr hnd
  rw [markers_to_md_block_rows m
      (fun kv hkv => (goodMarkerName_spec (hgood kv hkv)).2.2.1),
    parse_of_good_rows _ hgood',
    dict_fold_lookup _ [] (fun kv _ => rfl) hnd' k]
  show (List.lookup k (List.insertionSort byMarkerTime m)).map round2 = _
  rw [lookup_perm hperm hnd' k]

/-- C6, witness: the round-trip theorem applied to the map
`{"t_a": 1.005, "t_b": 12.3}` at the key `t_a`. -/
theorem markers_roundtrip_witness :
    (([(chars "t_a", (1005 / 1000 : ℚ)), (chars "t_b", 123 / 10)].map Prod.fst).Nodup ∧
      (∀ kv ∈ [(chars "t_a", (1005 / 1000 : ℚ)), (chars "t_b", 123 / 10)],
        goodMarkerName kv.1 = true)) ∧
    List.lookup (chars "t_a")
        (parse_timeline_markers_from_md (markers_to_md_block
          [(chars "t_a", 1005 / 1000), (chars "t_b", 123 / 10)])) =
      (List.lookup (chars "t_a")
        [(chars "t_a", (1005 / 1000 : ℚ)), (chars "t_b", 123 / 10)]).map round2 :=
  ⟨⟨by decide, by decide⟩,
    markers_roundtrip [(chars "t_a", 1005 / 1000), (chars "t_b", 123 / 10)]
      (by decide) (by decide) (chars "t_a")⟩
